import Mathlib

/-!
# QuickDigest5: a shallow embedding of the MD5 engine

Source: `src/src/quickdigest5.cpp` and `src/include/quickdigest5.hpp`.

* `uint32_t` words and the `uint64_t` byte counter are natural numbers, reduced
  `% 2^32` / `% 2^64` wherever the C++ arithmetic can wrap.
* `uint8_t` bytes are `UInt8` values (they are only stored and read back).
* The mutable object `QuickDigest5` is the record `State`; every member function
  takes the state and returns the new one.
-/

namespace QuickDigest5

/-! ## Static tables -/

/-- The static array `padding[64] = {0x80}`: one `0x80`, the rest zero-initialised. -/
def padding : List UInt8 := 0x80 :: List.replicate 63 0

/-- The static array `shift[64]`. -/
def shift : List Nat := [
  7, 12, 17, 22, 7, 12, 17, 22,
  7, 12, 17, 22, 7, 12, 17, 22,
  5,  9, 14, 20, 5,  9, 14, 20,
  5,  9, 14, 20, 5,  9, 14, 20,
  4, 11, 16, 23, 4, 11, 16, 23,
  4, 11, 16, 23, 4, 11, 16, 23,
  6, 10, 15, 21, 6, 10, 15, 21,
  6, 10, 15, 21, 6, 10, 15, 21]

/-- The static array `sineDerivation[64]`. -/
def sineDerivation : List Nat := [
  0xd76aa478, 0xe8c7b756, 0x242070db, 0xc1bdceee,
  0xf57c0faf, 0x4787c62a, 0xa8304613, 0xfd469501,
  0x698098d8, 0x8b44f7af, 0xffff5bb1, 0x895cd7be,
  0x6b901122, 0xfd987193, 0xa679438e, 0x49b40821,
  0xf61e2562, 0xc040b340, 0x265e5a51, 0xe9b6c7aa,
  0xd62f105d, 0x02441453, 0xd8a1e681, 0xe7d3fbc8,
  0x21e1cde6, 0xc33707d6, 0xf4d50d87, 0x455a14ed,
  0xa9e3e905, 0xfcefa3f8, 0x676f02d9, 0x8d2a4c8a,
  0xfffa3942, 0x8771f681, 0x6d9d6122, 0xfde5380c,
  0xa4beea44, 0x4bdecfa9, 0xf6bb4b60, 0xbebfbc70,
  0x289b7ec6, 0xeaa127fa, 0xd4ef3085, 0x04881d05,
  0xd9d4d039, 0xe6db99e5, 0x1fa27cf8, 0xc4ac5665,
  0xf4292244, 0x432aff97, 0xab9423a7, 0xfc93a039,
  0x655b59c3, 0x8f0ccc92, 0xffeff47d, 0x85845dd1,
  0x6fa87e4f, 0xfe2ce6e0, 0xa3014314, 0x4e0811a1,
  0xf7537e82, 0xbd3af235, 0x2ad7d2bb, 0xeb86d391]

/-! ## 32-bit helpers -/

/-- The modulus of `uint32_t` arithmetic. -/
def u32 : Nat := 4294967296

/-- The modulus of `uint64_t` arithmetic. -/
def u64 : Nat := 18446744073709551616

/-- Bitwise complement `~x` of a `uint32_t`. -/
def not32 (x : Nat) : Nat := 4294967295 - x

/-- `rotateLeft(x, n) = (x << n) | (x >> (32 - n))` on `uint32_t`. -/
def rotateLeft (x n : Nat) : Nat :=
  ((x <<< n) % u32) ||| (x >>> (32 - n))

/-! ## The object state -/

/-- The data members of a `QuickDigest5` object. -/
structure State where
  /-- The member `uint64_t size`. -/
  size : Nat
  /-- The member `std::vector<uint32_t> buffer` (four accumulator words). -/
  buffer : List Nat
  /-- The member `std::vector<uint8_t> input` (the 64-byte working buffer). -/
  input : List UInt8
  /-- The member `std::vector<uint8_t> digest` (16 bytes). -/
  digest : List UInt8
  deriving DecidableEq, Repr

/-- The constructor `QuickDigest5::QuickDigest5()`. -/
def init : State :=
  { size := 0
    buffer := [0x67452301, 0xefcdab89, 0x98badcfe, 0x10325476]
    input := List.replicate 64 0
    digest := List.replicate 16 0 }

/-- The four working registers `buf_0 .. buf_3` of `step`. -/
structure Regs where
  b0 : Nat
  b1 : Nat
  b2 : Nat
  b3 : Nat
  deriving DecidableEq, Repr

/-- The `switch(i / 16)` of `step`: the value `bit`. -/
def stepBit (i : Nat) (r : Regs) : Nat :=
  match i / 16 with
  | 0 => (r.b1 &&& r.b2) ||| (not32 r.b1 &&& r.b3)
  | 1 => (r.b1 &&& r.b3) ||| (r.b2 &&& not32 r.b3)
  | 2 => r.b1 ^^^ r.b2 ^^^ r.b3
  | _ => r.b2 ^^^ (r.b1 ||| not32 r.b3)

/-- The `switch(i / 16)` of `step`: the block-word index `idx`. -/
def stepIdx (i : Nat) : Nat :=
  match i / 16 with
  | 0 => i
  | 1 => ((i * 5) + 1) % 16
  | 2 => ((i * 3) + 5) % 16
  | _ => (i * 7) % 16

/-- One iteration of the `for` loop of `step`. -/
def stepRound (inputVec : List Nat) (r : Regs) (i : Nat) : Regs :=
  let bit := stepBit i r
  let idx := stepIdx i
  let temp := r.b3
  { b3 := r.b2
    b2 := r.b1
    b1 := (r.b1 + rotateLeft
            ((r.b0 + bit + sineDerivation.getD i 0 + inputVec.getD idx 0) % u32)
            (shift.getD i 0)) % u32
    b0 := temp }

/-- The 64 iterations of the loop of `step`, from the given registers. -/
def stepLoop (inputVec : List Nat) (r : Regs) : Regs :=
  (List.range 64).foldl (stepRound inputVec) r

/-- The compression transform on the accumulator words alone. -/
def compress (buffer : List Nat) (inputVec : List Nat) : List Nat :=
  let r := stepLoop inputVec
    { b0 := buffer.getD 0 0, b1 := buffer.getD 1 0,
      b2 := buffer.getD 2 0, b3 := buffer.getD 3 0 }
  [ (buffer.getD 0 0 + r.b0) % u32,
    (buffer.getD 1 0 + r.b1) % u32,
    (buffer.getD 2 0 + r.b2) % u32,
    (buffer.getD 3 0 + r.b3) % u32 ]

/-- The member function `QuickDigest5::step`. -/
def step (s : State) (inputVec : List Nat) : State :=
  { s with buffer := compress s.buffer inputVec }

/-- One decoded word: bytes `4*idx .. 4*idx+3` of the working buffer, little-endian. -/
def decodeWord (input : List UInt8) (idx : Nat) : Nat :=
  ((input.getD (idx * 4 + 3) 0).toNat <<< 24) |||
  ((input.getD (idx * 4 + 2) 0).toNat <<< 16) |||
  ((input.getD (idx * 4 + 1) 0).toNat <<< 8) |||
  (input.getD (idx * 4) 0).toNat

/-- The block-decoding loop `for(idx = 0; idx < n; ++idx) block[idx] = ...`. -/
def decodeBlock (input : List UInt8) (n : Nat) : List Nat :=
  (List.range n).map (decodeWord input)

/-- The `for` loop of `update`: the local `offset` and the object, byte by byte.
The loop resets `offset` to 0 whenever it reaches a multiple of 64, so the `uint32_t`
increment never wraps. -/
def updateLoop : List UInt8 → Nat → State → Nat × State
  | [], offset, s => (offset, s)
  | b :: rest, offset, s =>
    let s1 := { s with input := s.input.set offset b }
    let offset1 := offset + 1
    if offset1 % 64 = 0 then
      updateLoop rest 0 (step s1 (decodeBlock s1.input 16))
    else
      updateLoop rest offset1 s1

/-- The member function `QuickDigest5::update`; `size += inputLength` wraps at `2^64`. -/
def update (s : State) (inputBuffer : List UInt8) : State :=
  let offset := s.size % 64
  let s1 := { s with size := (s.size + inputBuffer.length) % u64 }
  (updateLoop inputBuffer offset s1).2

/-- The local `padding_length` of `finalize`. -/
def paddingLength (s : State) : Nat :=
  let offset := s.size % 64
  if offset < 56 then 56 - offset else 120 - offset

/-- The state of `finalize` after `update(padding, padding_length)` and
`size -= padding_length`. -/
def finalizePadded (s : State) : State :=
  let padding_length := paddingLength s
  let s1 := update s (padding.take padding_length)
  { s1 with size := (s1.size + u64 - padding_length) % u64 }

/-- The last block built by `finalize` from the padded state. -/
def finalBlock (s : State) : List Nat :=
  decodeBlock s.input 14 ++
    [((s.size * 8) % u64) % u32, (((s.size * 8) % u64) >>> 32) % u32]

/-- Serialisation of one accumulator word into four digest bytes. -/
def encodeWord (w : Nat) : List UInt8 :=
  [ UInt8.ofNat (w &&& 0x000000ff),
    UInt8.ofNat ((w &&& 0x0000ff00) >>> 8),
    UInt8.ofNat ((w &&& 0x00ff0000) >>> 16),
    UInt8.ofNat ((w &&& 0xff000000) >>> 24) ]

/-- The digest-writing loop of `finalize`. -/
def encodeDigest (buffer : List Nat) : List UInt8 :=
  (List.range 4).flatMap (fun i => encodeWord (buffer.getD i 0))

/-- The member function `QuickDigest5::finalize`. -/
def finalize (s : State) : State :=
  let s2 := finalizePadded s
  let s3 := step s2 (finalBlock s2)
  { s3 with digest := encodeDigest s3.buffer }

/-- The static function `QuickDigest5::digestString`. -/
def digestString (input : List UInt8) : List UInt8 :=
  (finalize (update init input)).digest

/-- The output of `ss << std::hex << std::setw(2) << std::setfill('0') << (int) b`:
the lowercase hexadecimal numeral of `b`, left-padded with `'0'` to width 2. -/
def hexByte (b : UInt8) : List Char :=
  List.leftpad 2 '0' (Nat.toDigits 16 b.toNat)

/-- The formatting loop shared by `toHash` and `fileToHash`. -/
def hexDigest (digest : List UInt8) : String :=
  String.mk ((List.range 16).flatMap (fun i => hexByte (digest.getD i 0)))

/-- The static function `QuickDigest5::toHash`. -/
def toHash (input : List UInt8) : String :=
  hexDigest (digestString input)

/-! ## The file driver

`digestFile` talks to a `std::ifstream`.  The stream is seen through what each
successive call `file.read(buffer, 4096)` leaves behind. -/

/-- The condition of the stream after a `read`: nothing set, `eofbit | failbit`
(the end of the file was reached before 4096 bytes) or `badbit` (the read failed). -/
inductive IoState where
  | good
  | eof
  | bad
  deriving DecidableEq, Repr

/-- The outcome of one `file.read`: the `gcount()` bytes now in the buffer and the
condition of the stream. -/
structure ReadResult where
  bytes : List UInt8
  state : IoState
  deriving DecidableEq, Repr

/-- The test `while(file)`, that is `!file.fail()`: false as soon as `failbit` or
`badbit` is set. -/
def streamOk (st : IoState) : Bool :=
  match st with
  | .good => true
  | .eof => false
  | .bad => false

/-- The `while(file)` loop of `digestFile` over the outcomes of the successive reads.
When the list is exhausted the stream has nothing more to deliver. -/
def readLoop : List ReadResult → State → State
  | [], s => s
  | r :: rest, s =>
    let s1 := if r.bytes.length > 0 then update s r.bytes else s
    if streamOk r.state then readLoop rest s1 else s1

/-- The file system as `digestFile` sees it: a path either cannot be opened, or
opens a stream with the given read outcomes. -/
abbrev FileSystem := String → Option (List ReadResult)

/-- The static function `QuickDigest5::digestFile`; `Except.error` carries the
message of the `std::runtime_error` thrown. -/
def digestFile (fs : FileSystem) (filepath : String) : Except String (List UInt8) :=
  match fs filepath with
  | none => .error ("Cannot open file: " ++ filepath)
  | some reads => .ok (finalize (readLoop reads init)).digest

/-- The static function `QuickDigest5::fileToHash`. -/
def fileToHash (fs : FileSystem) (filepath : String) : Except String String :=
  match digestFile fs filepath with
  | .error e => .error e
  | .ok digest => .ok (hexDigest digest)

/-- The reads of a file without I/O errors whose content is `x`: full 4096-byte
reads while 4096 bytes remain, then one shorter (possibly empty) read that hits
the end of the file. -/
def fileReads (x : List UInt8) : List ReadResult :=
  (List.range (x.length / 4096)).map
      (fun k => { bytes := (x.drop (4096 * k)).take 4096, state := .good }) ++
    [{ bytes := x.drop (4096 * (x.length / 4096)), state := .eof }]

/-! ## Reference definitions, written from the specification -/

/-- The fewest zero bytes `z` such that `n + 1 + z` is 56 modulo 64. -/
def refZeros (n : Nat) : Nat :=
  ((List.range 64).find? (fun z => (n + 1 + z) % 64 = 56)).getD 0

/-- The 8-byte little-endian encoding of `v`. -/
def refLength64 (v : Nat) : List UInt8 :=
  (List.range 8).map (fun j => UInt8.ofNat (v / 256 ^ j % 256))

/-- The padded message of RFC 1321. -/
def refPad (x : List UInt8) : List UInt8 :=
  x ++ [0x80] ++ List.replicate (refZeros x.length) 0 ++ refLength64 (8 * x.length)

/-- A byte string cut into consecutive 64-byte blocks. -/
def refBlocks (p : List UInt8) : List (List UInt8) :=
  (List.range (p.length / 64)).map (fun k => (p.drop (64 * k)).take 64)

/-- A 64-byte block read as sixteen little-endian 32-bit words. -/
def refWords (blk : List UInt8) : List Nat :=
  (List.range 16).map (fun i =>
    (blk.getD (4 * i) 0).toNat + 256 * (blk.getD (4 * i + 1) 0).toNat +
      65536 * (blk.getD (4 * i + 2) 0).toNat + 16777216 * (blk.getD (4 * i + 3) 0).toNat)

/-- A 32-bit word written little-endian. -/
def refEncode (w : Nat) : List UInt8 :=
  [UInt8.ofNat (w % 256), UInt8.ofNat (w / 256 % 256),
   UInt8.ofNat (w / 65536 % 256), UInt8.ofNat (w / 16777216 % 256)]

/-- The compression transform of the code, `compress`, folded over a list of blocks.
It describes the accumulator of the engine; the reference of RFC 1321 is
`md5Reference`, which does not use it. -/
def foldCompress (acc : List Nat) (blocks : List (List UInt8)) : List Nat :=
  blocks.foldl (fun a blk => compress a (refWords blk)) acc

/-- The lowercase hexadecimal digit of a value below 16. -/
def hexDigit (n : Nat) : Char :=
  "0123456789abcdef".data.getD n '0'

/-- The value of a lowercase hexadecimal digit. -/
def hexValue (c : Char) : Nat :=
  "0123456789abcdef".data.indexOf c

/-- Whether a character is one of `0-9` or `a-f`. -/
def isLowerHex (c : Char) : Bool :=
  ('0' ≤ c && c ≤ '9') || ('a' ≤ c && c ≤ 'f')

/-- A string of two-digit hexadecimal numerals decoded into bytes. -/
def decodeHex : List Char → List UInt8
  | hi :: lo :: rest => UInt8.ofNat (16 * hexValue hi + hexValue lo) :: decodeHex rest
  | _ => []

/-- The bytes of an ASCII string literal. -/
def asciiBytes (str : String) : List UInt8 :=
  str.data.map (fun c => UInt8.ofNat c.toNat)

/-- The rotation amounts as the specification lists them: `7,12,17,22` repeated for
round 0, `5,9,14,20` for round 1, `4,11,16,23` for round 2, `6,10,15,21` for round 3. -/
def refShift (i : Nat) : Nat :=
  if i < 16 then [7, 12, 17, 22].getD (i % 4) 0
  else if i < 32 then [5, 9, 14, 20].getD (i % 4) 0
  else if i < 48 then [4, 11, 16, 23].getD (i % 4) 0
  else [6, 10, 15, 21].getD (i % 4) 0

/-- The block-word index of step `i` as the specification gives it per round. -/
def refIdx (i : Nat) : Nat :=
  if i < 16 then i
  else if i < 32 then (5 * i + 1) % 16
  else if i < 48 then (3 * i + 5) % 16
  else (7 * i) % 16

/-! ## The engine with every array access checked

The same code, where an array read or write outside the array makes the result
`none`. -/

/-- A checked read `l[i]`. -/
def readAt {α : Type} (l : List α) (i : Nat) : Option α :=
  if i < l.length then l[i]? else none

/-- A checked write `l[i] = a`. -/
def writeAt {α : Type} (l : List α) (i : Nat) (a : α) : Option (List α) :=
  if i < l.length then some (l.set i a) else none

/-- `decodeWord` with checked reads of the working buffer. -/
def decodeWordChecked (input : List UInt8) (idx : Nat) : Option Nat := do
  let b3 ← readAt input (idx * 4 + 3)
  let b2 ← readAt input (idx * 4 + 2)
  let b1 ← readAt input (idx * 4 + 1)
  let b0 ← readAt input (idx * 4)
  pure ((b3.toNat <<< 24) ||| (b2.toNat <<< 16) ||| (b1.toNat <<< 8) ||| b0.toNat)

/-- The block-decoding loop with checked reads, for the word indices given. -/
def decodeBlockChecked (input : List UInt8) : List Nat → Option (List Nat)
  | [] => some []
  | idx :: rest => do
    let w ← decodeWordChecked input idx
    let ws ← decodeBlockChecked input rest
    pure (w :: ws)

/-- One iteration of the loop of `step` with checked reads of `sineDerivation`,
`inputVec` and `shift`. -/
def stepRoundChecked (inputVec : List Nat) (r : Regs) (i : Nat) : Option Regs := do
  let bit := stepBit i r
  let idx := stepIdx i
  let k ← readAt sineDerivation i
  let w ← readAt inputVec idx
  let sh ← readAt shift i
  pure { b3 := r.b2, b2 := r.b1,
         b1 := (r.b1 + rotateLeft ((r.b0 + bit + k + w) % u32) sh) % u32,
         b0 := r.b3 }

/-- The loop of `step` with checked reads, over the step numbers given. -/
def stepLoopChecked (inputVec : List Nat) : List Nat → Regs → Option Regs
  | [], r => some r
  | i :: rest, r => do
    let r1 ← stepRoundChecked inputVec r i
    stepLoopChecked inputVec rest r1

/-- The member function `step` with checked accesses to `buffer`, `inputVec` and the
tables. -/
def stepChecked (s : State) (inputVec : List Nat) : Option State := do
  let a0 ← readAt s.buffer 0
  let a1 ← readAt s.buffer 1
  let a2 ← readAt s.buffer 2
  let a3 ← readAt s.buffer 3
  let r ← stepLoopChecked inputVec (List.range 64) { b0 := a0, b1 := a1, b2 := a2, b3 := a3 }
  let buf0 ← writeAt s.buffer 0 ((a0 + r.b0) % u32)
  let buf1 ← writeAt buf0 1 ((a1 + r.b1) % u32)
  let buf2 ← writeAt buf1 2 ((a2 + r.b2) % u32)
  let buf3 ← writeAt buf2 3 ((a3 + r.b3) % u32)
  pure { s with buffer := buf3 }

/-- The loop of `update` with the write `input[offset++] = ...` checked; `i` is the
loop counter, checked against the array `inputBuffer` it reads. -/
def updateLoopChecked (inputBuffer : List UInt8) :
    Nat → Nat → Nat → State → Option (Nat × State)
  | 0, _, offset, s => some (offset, s)
  | n + 1, i, offset, s => do
    let b ← readAt inputBuffer i
    let input1 ← writeAt s.input offset b
    let s1 := { s with input := input1 }
    let offset1 := offset + 1
    if offset1 % 64 = 0 then
      let block ← decodeBlockChecked s1.input (List.range 16)
      let s2 ← stepChecked s1 block
      updateLoopChecked inputBuffer n (i + 1) 0 s2
    else
      updateLoopChecked inputBuffer n (i + 1) offset1 s1

/-- The member function `update(inputBuffer, inputLength)` with checked accesses. -/
def updateChecked (s : State) (inputBuffer : List UInt8) (inputLength : Nat) :
    Option State := do
  let offset := s.size % 64
  let s1 := { s with size := (s.size + inputLength) % u64 }
  let r ← updateLoopChecked inputBuffer inputLength 0 offset s1
  pure r.2

/-- The digest-writing loop of `finalize` with checked accesses, for the word
indices given. -/
def encodeDigestChecked (buffer : List Nat) : List Nat → List UInt8 → Option (List UInt8)
  | [], digest => some digest
  | i :: rest, digest => do
    let w ← readAt buffer i
    let d0 ← writeAt digest (i * 4 + 0) (UInt8.ofNat (w &&& 0x000000ff))
    let d1 ← writeAt d0 (i * 4 + 1) (UInt8.ofNat ((w &&& 0x0000ff00) >>> 8))
    let d2 ← writeAt d1 (i * 4 + 2) (UInt8.ofNat ((w &&& 0x00ff0000) >>> 16))
    let d3 ← writeAt d2 (i * 4 + 3) (UInt8.ofNat ((w &&& 0xff000000) >>> 24))
    encodeDigestChecked buffer rest d3

/-- The member function `finalize` with checked accesses. -/
def finalizeChecked (s : State) : Option State := do
  let padding_length := paddingLength s
  let s1 ← updateChecked s padding padding_length
  let s2 := { s1 with size := (s1.size + u64 - padding_length) % u64 }
  let words ← decodeBlockChecked s2.input (List.range 14)
  let block := words ++ [((s2.size * 8) % u64) % u32, (((s2.size * 8) % u64) >>> 32) % u32]
  let s3 ← stepChecked s2 block
  let digest ← encodeDigestChecked s3.buffer (List.range 4) s3.digest
  pure { s3 with digest := digest }

/-- The static function `digestString` with checked accesses. -/
def digestStringChecked (input : List UInt8) : Option (List UInt8) := do
  let s1 ← updateChecked init input input.length
  let s2 ← finalizeChecked s1
  pure s2.digest

/-! ## The blocks handed to the compression transform -/

/-- The blocks that the loop of `update` passes to `step`, in order. -/
def updateLoopBlocks : List UInt8 → Nat → State → List (List Nat)
  | [], _, _ => []
  | b :: rest, offset, s =>
    let s1 := { s with input := s.input.set offset b }
    let offset1 := offset + 1
    if offset1 % 64 = 0 then
      decodeBlock s1.input 16 ::
        updateLoopBlocks rest 0 (step s1 (decodeBlock s1.input 16))
    else
      updateLoopBlocks rest offset1 s1

/-- The blocks that one call of `update` passes to `step`. -/
def updateBlocks (s : State) (inputBuffer : List UInt8) : List (List Nat) :=
  updateLoopBlocks inputBuffer (s.size % 64)
    { s with size := (s.size + inputBuffer.length) % u64 }

/-- The blocks that `finalize` passes to `step`: those of the padding update, then
the final length block. -/
def finalizeBlocks (s : State) : List (List Nat) :=
  updateBlocks s (padding.take (paddingLength s)) ++ [finalBlock (finalizePadded s)]

/-- The blocks that `digestString` passes to `step`, in order. -/
def digestStringBlocks (input : List UInt8) : List (List Nat) :=
  updateBlocks init input ++ finalizeBlocks (update init input)

/-! ## Integer arithmetic for the sine table

The constants of `sineDerivation` are compared with the sine through the Taylor
polynomial of degree 19 of `exp` at the imaginary unit, whose value is
`(taylorCos + taylorSin * i) / taylorDen`, and its integer powers. -/

/-- Real and imaginary part of the `m`-th power of the imaginary unit. -/
def iPow : Nat → Int × Int
  | 0 => (1, 0)
  | m + 1 => (-(iPow m).2, (iPow m).1)

/-- The common denominator `19!` of the Taylor polynomial. -/
def taylorDen : Nat := 121645100408832000

/-- Numerators over `taylorDen` of the real and imaginary part of the sum of
`i^m / m!` for `m < n`. -/
def taylorNum : Nat → Int × Int
  | 0 => (0, 0)
  | n + 1 =>
    ((taylorNum n).1 + (iPow n).1 * ((taylorDen / Nat.factorial n : Nat) : Int),
     (taylorNum n).2 + (iPow n).2 * ((taylorDen / Nat.factorial n : Nat) : Int))

/-- The numerator of the real part of the Taylor polynomial: `taylorDen * cos 1`, nearly. -/
def taylorCos : Int := 65725128248453315

/-- The numerator of the imaginary part of the Taylor polynomial: `taylorDen * sin 1`,
nearly. -/
def taylorSin : Int := 102360822438075317

/-- Numerators over `taylorDen ^ k` of the real and imaginary part of the `k`-th power
of `(taylorCos + taylorSin * i) / taylorDen`. -/
def rotNum : Nat → Int × Int
  | 0 => (1, 0)
  | k + 1 =>
    ((rotNum k).1 * taylorCos - (rotNum k).2 * taylorSin,
     (rotNum k).1 * taylorSin + (rotNum k).2 * taylorCos)

/-- The integer test that `K ≤ 2^32 * |sin k| < K + 1`, with the error `k * 21 / (20! * 20)`
of the approximation `|sin k - (rotNum k).2 / taylorDen ^ k|` taken into account. -/
def sineCheck (k K : Nat) : Bool :=
  decide
    ((K : Int) * (taylorDen : Int) ^ k * 48658040163532800000
        + 4294967296 * ((k : Int) * 21) * (taylorDen : Int) ^ k
      ≤ 4294967296 * ((rotNum k).2.natAbs : Int) * 48658040163532800000 ∧
     4294967296 * ((rotNum k).2.natAbs : Int) * 48658040163532800000
        + 4294967296 * ((k : Int) * 21) * (taylorDen : Int) ^ k
      < ((K : Int) + 1) * (taylorDen : Int) ^ k * 48658040163532800000)

/-! ## RFC 1321, written from the RFC

Section 3.3 (the four-word buffer) and section 3.4 (processing the message in
16-word blocks), independently of the code: the auxiliary functions `F`, `G`, `H`, `I`,
the table `T`, the sixty-four operations `[abcd k s i]` in their four rounds, and the
final addition of the saved registers. -/

/-- The bit-wise complement `not(X)` of a 32-bit word. -/
def rfcNot (x : Nat) : Nat := 2 ^ 32 - 1 - x

/-- The RFC's `F(X,Y,Z) = XY v not(X) Z`. -/
def rfcF (x y z : Nat) : Nat := (x &&& y) ||| (rfcNot x &&& z)

/-- The RFC's `G(X,Y,Z) = XZ v Y not(Z)`. -/
def rfcG (x y z : Nat) : Nat := (x &&& z) ||| (y &&& rfcNot z)

/-- The RFC's `H(X,Y,Z) = X xor Y xor Z`. -/
def rfcH (x y z : Nat) : Nat := x ^^^ y ^^^ z

/-- The RFC's `I(X,Y,Z) = Y xor (X v not(Z))`. -/
def rfcI (x y z : Nat) : Nat := y ^^^ (x ||| rfcNot z)

/-- The RFC's `X + Y`: addition of words, modulo `2^32`. -/
def rfcAdd (x y : Nat) : Nat := (x + y) % 2 ^ 32

/-- The RFC's `X <<< s`: the 32-bit value obtained by circularly shifting `X` left by
`s` bit positions. -/
def rfcRotl (x s : Nat) : Nat := (x * 2 ^ s) % 2 ^ 32 + x / 2 ^ (32 - s)

/-- The RFC's table `T[1 ... 64]`; `T[i]` is the integer part of `4294967296 * abs(sin(i))`
with `i` in radians.  Entry `i - 1` of the list is `T[i]`. -/
def rfcT : List Nat := [
  0xd76aa478, 0xe8c7b756, 0x242070db, 0xc1bdceee, 0xf57c0faf, 0x4787c62a, 0xa8304613, 0xfd469501,
  0x698098d8, 0x8b44f7af, 0xffff5bb1, 0x895cd7be, 0x6b901122, 0xfd987193, 0xa679438e, 0x49b40821,
  0xf61e2562, 0xc040b340, 0x265e5a51, 0xe9b6c7aa, 0xd62f105d, 0x02441453, 0xd8a1e681, 0xe7d3fbc8,
  0x21e1cde6, 0xc33707d6, 0xf4d50d87, 0x455a14ed, 0xa9e3e905, 0xfcefa3f8, 0x676f02d9, 0x8d2a4c8a,
  0xfffa3942, 0x8771f681, 0x6d9d6122, 0xfde5380c, 0xa4beea44, 0x4bdecfa9, 0xf6bb4b60, 0xbebfbc70,
  0x289b7ec6, 0xeaa127fa, 0xd4ef3085, 0x04881d05, 0xd9d4d039, 0xe6db99e5, 0x1fa27cf8, 0xc4ac5665,
  0xf4292244, 0x432aff97, 0xab9423a7, 0xfc93a039, 0x655b59c3, 0x8f0ccc92, 0xffeff47d, 0x85845dd1,
  0x6fa87e4f, 0xfe2ce6e0, 0xa3014314, 0x4e0811a1, 0xf7537e82, 0xbd3af235, 0x2ad7d2bb, 0xeb86d391]

/-- The four registers `A`, `B`, `C`, `D` of the RFC. -/
structure RfcState where
  A : Nat
  B : Nat
  C : Nat
  D : Nat
  deriving DecidableEq, Repr

/-- The auxiliary function of a round. -/
inductive RfcAux where
  | F
  | G
  | H
  | I
  deriving DecidableEq, Repr

/-- The order in which an operation `[abcd k s i]` names the registers. -/
inductive RfcOrder where
  | ABCD
  | DABC
  | CDAB
  | BCDA
  deriving DecidableEq, Repr

/-- One operation `[abcd k s i]` of a round with auxiliary function `aux`. -/
structure RfcOp where
  aux : RfcAux
  order : RfcOrder
  k : Nat
  s : Nat
  i : Nat
  deriving DecidableEq, Repr

/-- The operations of one round, all with the same auxiliary function. -/
def rfcRound (aux : RfcAux) (ops : List (RfcOrder × Nat × Nat × Nat)) : List RfcOp :=
  ops.map (fun op => { aux := aux, order := op.1, k := op.2.1, s := op.2.2.1, i := op.2.2.2 })

/-- The sixty-four operations of section 3.4, round 1 to round 4. -/
def rfcSchedule : List RfcOp :=
  rfcRound .F [
    (.ABCD,  0,  7,  1), (.DABC,  1, 12,  2), (.CDAB,  2, 17,  3), (.BCDA,  3, 22,  4),
    (.ABCD,  4,  7,  5), (.DABC,  5, 12,  6), (.CDAB,  6, 17,  7), (.BCDA,  7, 22,  8),
    (.ABCD,  8,  7,  9), (.DABC,  9, 12, 10), (.CDAB, 10, 17, 11), (.BCDA, 11, 22, 12),
    (.ABCD, 12,  7, 13), (.DABC, 13, 12, 14), (.CDAB, 14, 17, 15), (.BCDA, 15, 22, 16)] ++
  rfcRound .G [
    (.ABCD,  1,  5, 17), (.DABC,  6,  9, 18), (.CDAB, 11, 14, 19), (.BCDA,  0, 20, 20),
    (.ABCD,  5,  5, 21), (.DABC, 10,  9, 22), (.CDAB, 15, 14, 23), (.BCDA,  4, 20, 24),
    (.ABCD,  9,  5, 25), (.DABC, 14,  9, 26), (.CDAB,  3, 14, 27), (.BCDA,  8, 20, 28),
    (.ABCD, 13,  5, 29), (.DABC,  2,  9, 30), (.CDAB,  7, 14, 31), (.BCDA, 12, 20, 32)] ++
  rfcRound .H [
    (.ABCD,  5,  4, 33), (.DABC,  8, 11, 34), (.CDAB, 11, 16, 35), (.BCDA, 14, 23, 36),
    (.ABCD,  1,  4, 37), (.DABC,  4, 11, 38), (.CDAB,  7, 16, 39), (.BCDA, 10, 23, 40),
    (.ABCD, 13,  4, 41), (.DABC,  0, 11, 42), (.CDAB,  3, 16, 43), (.BCDA,  6, 23, 44),
    (.ABCD,  9,  4, 45), (.DABC, 12, 11, 46), (.CDAB, 15, 16, 47), (.BCDA,  2, 23, 48)] ++
  rfcRound .I [
    (.ABCD,  0,  6, 49), (.DABC,  7, 10, 50), (.CDAB, 14, 15, 51), (.BCDA,  5, 21, 52),
    (.ABCD, 12,  6, 53), (.DABC,  3, 10, 54), (.CDAB, 10, 15, 55), (.BCDA,  1, 21, 56),
    (.ABCD,  8,  6, 57), (.DABC, 15, 10, 58), (.CDAB,  6, 15, 59), (.BCDA, 13, 21, 60),
    (.ABCD,  4,  6, 61), (.DABC, 11, 10, 62), (.CDAB,  2, 15, 63), (.BCDA,  9, 21, 64)]

/-- The auxiliary function named by a round. -/
def rfcAuxFn (aux : RfcAux) (x y z : Nat) : Nat :=
  match aux with
  | .F => rfcF x y z
  | .G => rfcG x y z
  | .H => rfcH x y z
  | .I => rfcI x y z

/-- The value `b + ((a + f(b,c,d) + X[k] + T[i]) <<< s)` assigned to `a` by the
operation `[abcd k s i]`. -/
def rfcValue (X : List Nat) (op : RfcOp) (a b c d : Nat) : Nat :=
  rfcAdd b
    (rfcRotl
      (rfcAdd (rfcAdd (rfcAdd a (rfcAuxFn op.aux b c d)) (X.getD op.k 0))
        (rfcT.getD (op.i - 1) 0))
      op.s)

/-- The operation `[abcd k s i]` on the registers, `abcd` being the order given. -/
def rfcApply (X : List Nat) (st : RfcState) (op : RfcOp) : RfcState :=
  match op.order with
  | .ABCD => { st with A := rfcValue X op st.A st.B st.C st.D }
  | .DABC => { st with D := rfcValue X op st.D st.A st.B st.C }
  | .CDAB => { st with C := rfcValue X op st.C st.D st.A st.B }
  | .BCDA => { st with B := rfcValue X op st.B st.C st.D st.A }

/-- Processing one 16-word block `X`: the registers are saved, the four rounds are
applied, and each register is incremented by the value it had before the block. -/
def rfcBlock (st : RfcState) (X : List Nat) : RfcState :=
  let r := rfcSchedule.foldl (rfcApply X) st
  { A := rfcAdd st.A r.A, B := rfcAdd st.B r.B, C := rfcAdd st.C r.C, D := rfcAdd st.D r.D }

/-- The initial registers of section 3.3: `A = 01 23 45 67`, `B = 89 ab cd ef`,
`C = fe dc ba 98`, `D = 76 54 32 10`, low-order bytes first. -/
def rfcInit : RfcState :=
  { A := 0x67452301, B := 0xefcdab89, C := 0x98badcfe, D := 0x10325476 }

/-- The reference MD5 of RFC 1321: the padded message is cut into 64-byte blocks read
as sixteen little-endian words, each block is processed as in section 3.4, and the
digest is `A`, `B`, `C`, `D`, each written low-order byte first. -/
def md5Reference (x : List UInt8) : List UInt8 :=
  let st := (refBlocks (refPad x)).foldl (fun st blk => rfcBlock st (refWords blk)) rfcInit
  refEncode st.A ++ refEncode st.B ++ refEncode st.C ++ refEncode st.D

/-! ## The registers of the code against the registers of the RFC -/

/-- The registers `buf_0 .. buf_3` of `step` before step `n`, in terms of the registers
of the RFC: the code renames its variables at every step, the RFC renames the
roles `abcd` of its operations. -/
def regsOf (n : Nat) (st : RfcState) : Regs :=
  match n % 4 with
  | 0 => { b0 := st.A, b1 := st.B, b2 := st.C, b3 := st.D }
  | 1 => { b0 := st.D, b1 := st.A, b2 := st.B, b3 := st.C }
  | 2 => { b0 := st.C, b1 := st.D, b2 := st.A, b3 := st.B }
  | _ => { b0 := st.B, b1 := st.C, b2 := st.D, b3 := st.A }

/-- The order of the registers in operation number `n` of the schedule. -/
def orderAt (n : Nat) : RfcOrder :=
  match n % 4 with
  | 0 => .ABCD
  | 1 => .DABC
  | 2 => .CDAB
  | _ => .BCDA

/-- The auxiliary function of operation number `n` of the schedule. -/
def auxAt (n : Nat) : RfcAux :=
  match n / 16 with
  | 0 => .F
  | 1 => .G
  | 2 => .H
  | _ => .I

/-- A placeholder operation for positions outside the schedule. -/
def noOp : RfcOp := { aux := .F, order := .ABCD, k := 0, s := 0, i := 0 }

/-- The four registers as the accumulator words of the code. -/
def rfcWords (st : RfcState) : List Nat := [st.A, st.B, st.C, st.D]

/-! ## Basic facts about the absorption loop -/

theorem updateLoop_append (a b : List UInt8) (offset : Nat) (s : State) :
    updateLoop (a ++ b) offset s =
      updateLoop b (updateLoop a offset s).1 (updateLoop a offset s).2 := by
  induction a generalizing offset s with
  | nil => rfl
  | cons x rest ih =>
    simp only [List.cons_append, updateLoop]
    split <;> exact ih _ _

theorem updateLoop_offset (a : List UInt8) (offset : Nat) (s : State) (h : offset < 64) :
    (updateLoop a offset s).1 = (offset + a.length) % 64 := by
  induction a generalizing offset s with
  | nil => simp [updateLoop]; omega
  | cons x rest ih =>
    simp only [updateLoop, List.length_cons]
    split
    · rw [ih _ _ (by omega)]; omega
    · rw [ih _ _ (by omega)]; omega

theorem updateLoop_size (a : List UInt8) (offset : Nat) (s : State) :
    (updateLoop a offset s).2.size = s.size := by
  induction a generalizing offset s with
  | nil => rfl
  | cons x rest ih =>
    simp only [updateLoop]
    split
    · rw [ih]; rfl
    · rw [ih]

theorem updateLoop_digest (a : List UInt8) (offset : Nat) (s : State) :
    (updateLoop a offset s).2.digest = s.digest := by
  induction a generalizing offset s with
  | nil => rfl
  | cons x rest ih =>
    simp only [updateLoop]
    split
    · rw [ih]; rfl
    · rw [ih]

/-- The loop never reads the byte counter: changing `size` commutes with it. -/
theorem updateLoop_withSize (a : List UInt8) (offset : Nat) (s : State) (n : Nat) :
    updateLoop a offset { s with size := n } =
      ((updateLoop a offset s).1, { (updateLoop a offset s).2 with size := n }) := by
  induction a generalizing offset s with
  | nil => rfl
  | cons x rest ih =>
    simp only [updateLoop]
    split
    · exact ih 0 (step { s with input := s.input.set offset x }
        (decodeBlock (s.input.set offset x) 16))
    · exact ih (offset + 1) { s with input := s.input.set offset x }

theorem update_size (s : State) (a : List UInt8) :
    (update s a).size = (s.size + a.length) % u64 := by
  simp [update, updateLoop_size]

theorem update_digest (s : State) (a : List UInt8) :
    (update s a).digest = s.digest := by
  simp [update, updateLoop_digest]

/-- Two successive `update` calls absorb the concatenation. -/
theorem update_append (s : State) (a b : List UInt8) :
    update (update s a) b = update s (a ++ b) := by
  have h64 : ∀ n : Nat, n % u64 % 64 = n % 64 := fun n => by
    simp only [u64]; omega
  have hsz : ((s.size + a.length) % u64 + b.length) % u64
      = (s.size + (a.length + b.length)) % u64 := by
    simp only [u64]; omega
  have hoff : (updateLoop a (s.size % 64) s).1 = (s.size + a.length) % 64 := by
    rw [updateLoop_offset _ _ _ (Nat.mod_lt _ (by decide))]; omega
  simp only [update, updateLoop_withSize, updateLoop_append, updateLoop_size,
    List.length_append, h64, hsz, hoff]

theorem foldl_update (chunks : List (List UInt8)) (s : State) (a : List UInt8) :
    chunks.foldl update (update s a) = update s (a ++ chunks.flatten) := by
  induction chunks generalizing a with
  | nil => simp
  | cons c cs ih =>
    simp only [List.foldl_cons, List.flatten_cons]
    rw [update_append, ih, List.append_assoc]

theorem update_init_nil : update init [] = init := by decide

theorem foldl_update_init (chunks : List (List UInt8)) :
    chunks.foldl update init = update init chunks.flatten := by
  have h := foldl_update chunks init []
  rw [update_init_nil] at h
  simpa using h

/-! ## Little-endian words -/

theorem bytes_or_eq_add (b0 b1 b2 b3 : Nat) (h0 : b0 < 256) (h1 : b1 < 256) (h2 : b2 < 256) :
    (b3 <<< 24) ||| (b2 <<< 16) ||| (b1 <<< 8) ||| b0
      = b0 + 256 * b1 + 65536 * b2 + 16777216 * b3 := by
  have s3 : b3 <<< 24 = 2 ^ 24 * b3 := by rw [Nat.shiftLeft_eq, Nat.mul_comm]
  have s2 : b2 <<< 16 = 2 ^ 16 * b2 := by rw [Nat.shiftLeft_eq, Nat.mul_comm]
  have s1 : b1 <<< 8 = 2 ^ 8 * b1 := by rw [Nat.shiftLeft_eq, Nat.mul_comm]
  have o1 := Nat.mul_add_lt_is_or (i := 24) (b := 2 ^ 16 * b2) (by omega) b3
  have o2 := Nat.mul_add_lt_is_or (i := 16) (b := 2 ^ 8 * b1) (by omega) (256 * b3 + b2)
  have o3 := Nat.mul_add_lt_is_or (i := 8) (b := b0) (by omega) (65536 * b3 + 256 * b2 + b1)
  have e2 : 2 ^ 24 * b3 + 2 ^ 16 * b2 = 2 ^ 16 * (256 * b3 + b2) := by omega
  have e3 : 2 ^ 16 * (256 * b3 + b2) + 2 ^ 8 * b1
      = 2 ^ 8 * (65536 * b3 + 256 * b2 + b1) := by omega
  rw [s3, s2, s1, ← o1, e2, ← o2, e3, ← o3]
  omega

theorem decodeWord_eq (input : List UInt8) (idx : Nat) :
    decodeWord input idx =
      (input.getD (4 * idx) 0).toNat + 256 * (input.getD (4 * idx + 1) 0).toNat +
        65536 * (input.getD (4 * idx + 2) 0).toNat +
        16777216 * (input.getD (4 * idx + 3) 0).toNat := by
  unfold decodeWord
  rw [bytes_or_eq_add _ _ _ _ (UInt8.toNat_lt _) (UInt8.toNat_lt _) (UInt8.toNat_lt _),
    Nat.mul_comm idx 4]

theorem decodeBlock_eq_refWords (blk : List UInt8) : decodeBlock blk 16 = refWords blk := by
  unfold decodeBlock refWords
  exact List.map_congr_left (fun i _ => decodeWord_eq blk i)

theorem mask_shift (w k : Nat) : (w &&& ((2 ^ 8 - 1) <<< k)) >>> k = w / 2 ^ k % 2 ^ 8 := by
  apply Nat.eq_of_testBit_eq
  intro i
  rw [Nat.testBit_shiftRight, Nat.testBit_and, Nat.testBit_shiftLeft, Nat.testBit_mod_two_pow,
    ← Nat.shiftRight_eq_div_pow, Nat.testBit_shiftRight, Nat.testBit_two_pow_sub_one]
  simp [Bool.and_comm]

/-- The masks and shifts of the digest loop extract the four bytes of a word. -/
theorem encodeWord_eq (w : Nat) : encodeWord w = refEncode w := by
  have m0 : w &&& 0x000000ff = w % 256 := Nat.and_pow_two_sub_one_eq_mod w 8
  have m1 : (w &&& 0x0000ff00) >>> 8 = w / 256 % 256 := mask_shift w 8
  have m2 : (w &&& 0x00ff0000) >>> 16 = w / 65536 % 256 := mask_shift w 16
  have m3 : (w &&& 0xff000000) >>> 24 = w / 16777216 % 256 := mask_shift w 24
  simp only [encodeWord, refEncode, m0, m1, m2, m3]

/-! ## Cutting a message into blocks -/

theorem block_of_append (p t : List UInt8) (k : Nat) (h : 64 * k + 64 ≤ p.length) :
    ((p ++ t).drop (64 * k)).take 64 = (p.drop (64 * k)).take 64 := by
  rw [List.drop_append_of_le_length (by omega),
    List.take_append_of_le_length (by rw [List.length_drop]; omega)]

theorem refBlocks_append_short (p t : List UInt8) (h : p.length % 64 + t.length < 64) :
    refBlocks (p ++ t) = refBlocks p := by
  have hq : (p.length + t.length) / 64 = p.length / 64 := by omega
  unfold refBlocks
  rw [List.length_append, hq]
  apply List.map_congr_left
  intro k hk
  rw [List.mem_range] at hk
  exact block_of_append p t k (by omega)

theorem refBlocks_append_fill (p t : List UInt8) (h : p.length % 64 + t.length = 64) :
    refBlocks (p ++ t) = refBlocks p ++ [p.drop (64 * (p.length / 64)) ++ t] := by
  have hq : (p.length + t.length) / 64 = p.length / 64 + 1 := by omega
  unfold refBlocks
  rw [List.length_append, hq, List.range_succ, List.map_append]
  congr 1
  · apply List.map_congr_left
    intro k hk
    rw [List.mem_range] at hk
    exact block_of_append p t k (by omega)
  · simp only [List.map_cons, List.map_nil]
    rw [List.drop_append_of_le_length (by omega),
      List.take_of_length_le (by rw [List.length_append, List.length_drop]; omega)]

theorem foldCompress_append (acc : List Nat) (bs : List (List UInt8)) (blk : List UInt8) :
    foldCompress acc (bs ++ [blk]) = compress (foldCompress acc bs) (refWords blk) := by
  simp [foldCompress, List.foldl_append]

/-! ## What a state holds after absorbing a message -/

theorem update_singleton (s : State) (b : UInt8) :
    update s [b] =
      if (s.size % 64 + 1) % 64 = 0 then
        step { s with size := (s.size + 1) % u64, input := s.input.set (s.size % 64) b }
          (decodeBlock (s.input.set (s.size % 64) b) 16)
      else
        { s with size := (s.size + 1) % u64, input := s.input.set (s.size % 64) b } := by
  simp only [update, updateLoop, List.length_singleton]
  split <;> rfl

theorem size_mod (n : Nat) : n % u64 % 64 = n % 64 := by
  simp only [u64]; omega

theorem take_set_succ (l : List UInt8) (k : Nat) (b : UInt8) (h : k < l.length) :
    (l.set k b).take (k + 1) = l.take k ++ [b] := by
  apply List.ext_getElem
  · simp [List.length_take]; omega
  · intro n h1 h2
    simp only [List.length_take, List.length_set, List.length_append,
      List.length_singleton] at h1 h2
    by_cases hn : n = k
    · subst hn
      simp [List.getElem_take, List.getElem_append_right]
    · have hlt : n < k := by omega
      rw [List.getElem_take, List.getElem_set_ne (by omega),
        List.getElem_append_left (by simp [List.length_take]; omega), List.getElem_take]

/-- After absorbing `m` into a fresh object: the accumulator is the compression
folded over the full blocks of `m`, and the working buffer starts with the bytes
of `m` that follow the last full block. -/
theorem update_init_spec (m : List UInt8) :
    (update init m).buffer = foldCompress init.buffer (refBlocks m) ∧
    (update init m).input.length = 64 ∧
    (update init m).input.take (m.length % 64) = m.drop (64 * (m.length / 64)) := by
  induction m using List.reverseRecOn with
  | nil => decide
  | append_singleton l a ih =>
    obtain ⟨ihb, ihl, iht⟩ := ih
    have hsz : (update init l).size % 64 = l.length % 64 := by
      rw [update_size, size_mod]; simp [init]
    rw [← update_append, update_singleton, hsz]
    by_cases hk : (l.length % 64 + 1) % 64 = 0
    · have hk63 : l.length % 64 = 63 := by omega
      rw [if_pos hk]
      have hblk : (update init l).input.set (l.length % 64) a
          = l.drop (64 * (l.length / 64)) ++ [a] := by
        rw [← iht, ← take_set_succ _ _ _ (by omega)]
        rw [List.take_of_length_le (by simp [ihl]; omega)]
      refine ⟨?_, ?_, ?_⟩
      · simp only [step]
        rw [refBlocks_append_fill l [a] (by simp; omega), foldCompress_append, ← ihb, hblk,
          decodeBlock_eq_refWords]
      · simp [step, ihl]
      · have h0 : (l ++ [a]).length % 64 = 0 := by simp; omega
        rw [h0, List.take_zero, List.drop_of_length_le (by simp; omega)]
    · rw [if_neg hk]
      refine ⟨?_, ?_, ?_⟩
      · simp only []
        rw [refBlocks_append_short l [a] (by simp; omega), ihb]
      · simp [ihl]
      · have h1 : (l ++ [a]).length % 64 = l.length % 64 + 1 := by simp; omega
        have h2 : (l ++ [a]).length / 64 = l.length / 64 := by simp; omega
        simp only []
        rw [h1, h2, take_set_succ _ _ _ (by omega), iht,
          List.drop_append_of_le_length (by omega)]

/-! ## Padding -/

theorem ofNat_toNat (n : Nat) : (UInt8.ofNat n).toNat = n % 256 := rfl

theorem refZeros_mod (n : Nat) : refZeros n = refZeros (n % 64) := by
  unfold refZeros
  have h : (fun z => decide ((n + 1 + z) % 64 = 56))
      = (fun z => decide ((n % 64 + 1 + z) % 64 = 56)) := by
    funext z
    congr 1
    apply propext
    constructor <;> intro h <;> omega
  rw [h]

theorem refZeros_small : ∀ r : Fin 64,
    refZeros r.val = if r.val < 56 then 55 - r.val else 119 - r.val := by
  decide

theorem refZeros_eq (n : Nat) :
    refZeros n = if n % 64 < 56 then 55 - n % 64 else 119 - n % 64 := by
  rw [refZeros_mod]
  exact refZeros_small ⟨n % 64, Nat.mod_lt _ (by decide)⟩

theorem paddingLength_eq (s : State) : paddingLength s = refZeros s.size + 1 := by
  rw [refZeros_eq]
  unfold paddingLength
  simp only []
  split <;> omega

theorem paddingLength_pos (s : State) : 1 ≤ paddingLength s := by
  unfold paddingLength
  simp only []
  have := Nat.mod_lt s.size (show 64 > 0 by decide)
  split <;> omega

theorem paddingLength_le (s : State) : paddingLength s ≤ 64 := by
  unfold paddingLength
  simp only []
  have := Nat.mod_lt s.size (show 64 > 0 by decide)
  split <;> omega

theorem padding_length : padding.length = 64 := by decide

theorem padding_take_length (s : State) :
    (padding.take (paddingLength s)).length = paddingLength s := by
  rw [List.length_take, padding_length]
  exact Nat.min_eq_left (paddingLength_le s)

theorem padding_take (z : Nat) (h : z ≤ 63) :
    padding.take (z + 1) = [0x80] ++ List.replicate z 0 := by
  unfold padding
  rw [List.take_succ_cons, List.take_replicate, Nat.min_eq_left h]
  rfl

/-! ## The last block -/

theorem refLength64_length (v : Nat) : (refLength64 v).length = 8 := by
  simp [refLength64]

theorem getD_take_append (inp l8 : List UInt8) (j : Nat) (hlen : inp.length = 64)
    (hj : j < 56) : (inp.take 56 ++ l8).getD j 0 = inp.getD j 0 := by
  rw [List.getD_eq_getElem?_getD, List.getD_eq_getElem?_getD,
    List.getElem?_append_left (by rw [List.length_take]; omega), List.getElem?_take_of_lt hj]

theorem getD_length_field (inp : List UInt8) (v j : Nat) (hlen : inp.length = 64)
    (hj : j < 8) :
    ((inp.take 56 ++ refLength64 v).getD (56 + j) 0).toNat = v / 256 ^ j % 256 := by
  rw [List.getD_eq_getElem?_getD,
    List.getElem?_append_right (by rw [List.length_take]; omega)]
  have h56 : 56 + j - (List.take 56 inp).length = j := by
    rw [List.length_take]; omega
  rw [h56]
  simp only [refLength64, List.getElem?_map, List.getElem?_range hj, Option.map_some',
    Option.getD_some, ofNat_toNat]
  omega

theorem finalBlock_eq (s : State) (hlen : s.input.length = 64)
    (hn : s.size < 2305843009213693952) :
    finalBlock s = refWords (s.input.take 56 ++ refLength64 (8 * s.size)) := by
  unfold finalBlock refWords decodeBlock
  rw [show List.range 16 = List.range 14 ++ [14, 15] by decide, List.map_append]
  congr 1
  · apply List.map_congr_left
    intro i hi
    rw [List.mem_range] at hi
    rw [decodeWord_eq, getD_take_append _ _ _ hlen (by omega),
      getD_take_append _ _ _ hlen (by omega), getD_take_append _ _ _ hlen (by omega),
      getD_take_append _ _ _ hlen (by omega)]
  · simp only [List.map_cons, List.map_nil]
    have g0 := getD_length_field s.input (8 * s.size) 0 hlen (by omega)
    have g1 := getD_length_field s.input (8 * s.size) 1 hlen (by omega)
    have g2 := getD_length_field s.input (8 * s.size) 2 hlen (by omega)
    have g3 := getD_length_field s.input (8 * s.size) 3 hlen (by omega)
    have g4 := getD_length_field s.input (8 * s.size) 4 hlen (by omega)
    have g5 := getD_length_field s.input (8 * s.size) 5 hlen (by omega)
    have g6 := getD_length_field s.input (8 * s.size) 6 hlen (by omega)
    have g7 := getD_length_field s.input (8 * s.size) 7 hlen (by omega)
    simp only [Nat.reduceAdd, Nat.reducePow, Nat.reduceMul] at g0 g1 g2 g3 g4 g5 g6 g7 ⊢
    rw [g0, g1, g2, g3, g4, g5, g6, g7, Nat.shiftRight_eq_div_pow]
    simp only [u64, u32, Nat.reducePow]
    congr 1
    · omega
    · congr 1
      omega

/-! ## `digestString` against the reference -/

theorem encodeDigest_compress (acc blk : List Nat) :
    encodeDigest (compress acc blk) = (compress acc blk).flatMap refEncode := by
  have h : encodeWord = refEncode := funext encodeWord_eq
  unfold encodeDigest
  rw [h]
  rfl

theorem refZeros_le (n : Nat) : refZeros n ≤ 63 := by
  rw [refZeros_eq]
  have := Nat.mod_lt n (show 64 > 0 by decide)
  split <;> omega

theorem refZeros_length (n : Nat) : (n + 1 + refZeros n) % 64 = 56 := by
  rw [refZeros_eq]
  split <;> omega

/-- The object after the padding of `finalize` has been absorbed and the byte
counter restored. -/
theorem finalizePadded_spec (x : List UInt8) (hx : x.length < 2305843009213693952) :
    (finalizePadded (update init x)).size = x.length ∧
    (finalizePadded (update init x)).buffer
      = foldCompress init.buffer (refBlocks (x ++ [0x80] ++ List.replicate (refZeros x.length) 0)) ∧
    (finalizePadded (update init x)).input.length = 64 ∧
    (finalizePadded (update init x)).input.take 56
      = (x ++ [0x80] ++ List.replicate (refZeros x.length) 0).drop
          (64 * ((x ++ [0x80] ++ List.replicate (refZeros x.length) 0).length / 64)) := by
  have hsz : (update init x).size = x.length := by
    rw [update_size]
    simp only [init, u64]
    omega
  have hpad : paddingLength (update init x) = refZeros x.length + 1 := by
    rw [paddingLength_eq, hsz]
  have hup : update (update init x) (padding.take (paddingLength (update init x)))
      = update init (x ++ [0x80] ++ List.replicate (refZeros x.length) 0) := by
    rw [hpad, padding_take _ (refZeros_le _), update_append, List.append_assoc]
  have hlen : (x ++ [0x80] ++ List.replicate (refZeros x.length) 0).length
      = x.length + 1 + refZeros x.length := by
    simp only [List.length_append, List.length_singleton, List.length_replicate]
  have hmod := refZeros_length x.length
  have hz := refZeros_le x.length
  obtain ⟨hb, hl, ht⟩ :=
    update_init_spec (x ++ [0x80] ++ List.replicate (refZeros x.length) 0)
  rw [hlen] at ht
  rw [hmod] at ht
  refine ⟨?_, ?_, ?_, ?_⟩
  · simp only [finalizePadded]
    rw [hup, update_size, hlen, hpad]
    simp only [init, u64]
    omega
  · simp only [finalizePadded]
    rw [hup]
    exact hb
  · simp only [finalizePadded]
    rw [hup]
    exact hl
  · simp only [finalizePadded]
    rw [hup, hlen]
    exact ht

theorem digestString_eq_fold (x : List UInt8) (hx : x.length < 2305843009213693952) :
    digestString x
      = (foldCompress init.buffer (refBlocks (refPad x))).flatMap refEncode := by
  obtain ⟨hsz, hb, hl, ht⟩ := finalizePadded_spec x hx
  have hfb := finalBlock_eq (finalizePadded (update init x)) hl (by rw [hsz]; exact hx)
  rw [ht, hsz] at hfb
  have hmod := refZeros_length x.length
  have hfill := refBlocks_append_fill
    (x ++ [0x80] ++ List.replicate (refZeros x.length) 0) (refLength64 (8 * x.length))
    (by rw [refLength64_length]; simp; omega)
  unfold digestString refPad
  simp only [finalize, step]
  rw [encodeDigest_compress, hfb, hb, hfill, foldCompress_append]

/-! ## Hexadecimal rendering -/

set_option maxRecDepth 100000 in
theorem hexNumeral_small : ∀ n : Fin 256,
    List.leftpad 2 '0' (Nat.toDigits 16 n.val) = [hexDigit (n.val / 16), hexDigit (n.val % 16)] := by
  decide

theorem hexByte_eq (b : UInt8) :
    hexByte b = [hexDigit (b.toNat / 16), hexDigit (b.toNat % 16)] :=
  hexNumeral_small ⟨b.toNat, UInt8.toNat_lt b⟩

theorem isLowerHex_hexDigit : ∀ k : Fin 16, isLowerHex (hexDigit k.val) = true := by
  decide

theorem hexValue_hexDigit : ∀ k : Fin 16, hexValue (hexDigit k.val) = k.val := by
  decide

theorem hexByte_lower (b : UInt8) (c : Char) (hc : c ∈ hexByte b) : isLowerHex c = true := by
  have hlt := UInt8.toNat_lt b
  rw [hexByte_eq] at hc
  simp only [List.mem_cons, List.mem_singleton, List.not_mem_nil, or_false] at hc
  rcases hc with h | h
  · rw [h]; exact isLowerHex_hexDigit ⟨b.toNat / 16, by omega⟩
  · rw [h]; exact isLowerHex_hexDigit ⟨b.toNat % 16, by omega⟩

theorem ofNat_of_toNat (b : UInt8) : UInt8.ofNat b.toNat = b := by
  apply UInt8.ext
  rw [ofNat_toNat]
  exact Nat.mod_eq_of_lt (UInt8.toNat_lt b)

theorem decode_hexByte (b : UInt8) :
    UInt8.ofNat (16 * hexValue (hexDigit (b.toNat / 16)) + hexValue (hexDigit (b.toNat % 16)))
      = b := by
  have hlt := UInt8.toNat_lt b
  rw [hexValue_hexDigit ⟨b.toNat / 16, by omega⟩, hexValue_hexDigit ⟨b.toNat % 16, by omega⟩]
  have h : 16 * (b.toNat / 16) + b.toNat % 16 = b.toNat := by omega
  simp only [h]
  exact ofNat_of_toNat b

theorem hexDigest_data (d : List UInt8) :
    (hexDigest d).data = (List.range 16).flatMap (fun i => hexByte (d.getD i 0)) := rfl

theorem decodeHex_flatMap (l : List Nat) (d : List UInt8) :
    decodeHex (l.flatMap (fun i => hexByte (d.getD i 0))) = l.map (fun i => d.getD i 0) := by
  induction l with
  | nil => rfl
  | cons i rest ih =>
    rw [List.flatMap_cons, hexByte_eq]
    show decodeHex (_ :: _ :: rest.flatMap (fun i => hexByte (d.getD i 0))) = _
    simp only [decodeHex, List.map_cons]
    rw [ih, decode_hexByte]

theorem length_flatMap_hexByte (l : List Nat) (d : List UInt8) :
    (l.flatMap (fun i => hexByte (d.getD i 0))).length = 2 * l.length := by
  induction l with
  | nil => rfl
  | cons i rest ih =>
    rw [List.flatMap_cons, List.length_append, ih, hexByte_eq]
    simp only [List.length_cons, List.length_nil]
    omega

theorem getElem?_flatMap_hexByte (n : Nat) (d : List UInt8) (i : Nat) (hi : i < n) :
    ((List.range n).flatMap (fun i => hexByte (d.getD i 0)))[2 * i]?
        = some (hexDigit ((d.getD i 0).toNat / 16)) ∧
    ((List.range n).flatMap (fun i => hexByte (d.getD i 0)))[2 * i + 1]?
        = some (hexDigit ((d.getD i 0).toNat % 16)) := by
  induction n with
  | zero => omega
  | succ n ih =>
    rw [List.range_succ, List.flatMap_append]
    have hlen := length_flatMap_hexByte (List.range n) d
    rw [List.length_range] at hlen
    by_cases h : i < n
    · obtain ⟨h1, h2⟩ := ih h
      rw [List.getElem?_append_left (by omega), List.getElem?_append_left (by omega)]
      exact ⟨h1, h2⟩
    · have hin : i = n := by omega
      subst hin
      rw [List.getElem?_append_right (by omega), List.getElem?_append_right (by omega), hlen]
      simp only [List.flatMap_cons, List.flatMap_nil, List.append_nil, hexByte_eq,
        Nat.sub_self, show 2 * i + 1 - 2 * i = 1 by omega]
      exact ⟨rfl, rfl⟩

theorem map_getD_range (d : List UInt8) : (List.range d.length).map (fun i => d.getD i 0) = d := by
  apply List.ext_getElem
  · simp
  · intro n h1 h2
    simp [List.getD_eq_getElem?_getD, List.getElem?_eq_getElem h2]

theorem encodeDigest_length (buffer : List Nat) : (encodeDigest buffer).length = 16 := rfl

theorem digestString_length (x : List UInt8) : (digestString x).length = 16 := rfl

/-! ## The file driver -/

theorem flatten_chunks (x : List UInt8) (c q : Nat) :
    ((List.range q).map (fun k => (x.drop (c * k)).take c)).flatten = x.take (c * q) := by
  induction q with
  | zero => simp
  | succ q ih =>
    rw [List.range_succ, List.map_append, List.flatten_append, ih, Nat.mul_succ, List.take_add]
    simp

theorem update_skip_empty (a t : List UInt8) :
    (if t.length > 0 then update (update init a) t else update init a)
      = update init (a ++ t) := by
  cases t with
  | nil => simp
  | cons b rest => simp [update_append]

theorem readLoop_stream (cs : List (List UInt8)) (t a : List UInt8) (st : IoState)
    (hst : streamOk st = false) :
    readLoop (cs.map (fun c => { bytes := c, state := IoState.good }) ++
        [{ bytes := t, state := st }]) (update init a)
      = update init (a ++ cs.flatten ++ t) := by
  induction cs generalizing a with
  | nil =>
    simp only [List.map_nil, List.nil_append, readLoop, hst, List.flatten_nil, List.append_nil]
    exact update_skip_empty a t
  | cons c cs ih =>
    simp only [List.map_cons, List.cons_append, readLoop, streamOk, if_true]
    rw [update_skip_empty]
    show readLoop (cs.map (fun c => { bytes := c, state := IoState.good }) ++
        [{ bytes := t, state := st }]) (update init (a ++ c)) = _
    rw [ih, List.flatten_cons]
    simp only [List.append_assoc]

theorem readLoop_fileReads (x : List UInt8) : readLoop (fileReads x) init = update init x := by
  have h := readLoop_stream ((List.range (x.length / 4096)).map
    (fun k => (x.drop (4096 * k)).take 4096)) (x.drop (4096 * (x.length / 4096))) []
    IoState.eof rfl
  rw [update_init_nil, List.map_map, flatten_chunks, List.nil_append,
    List.take_append_drop] at h
  exact h

theorem digestFile_opened (fs : FileSystem) (filepath : String) (reads : List ReadResult)
    (h : fs filepath = some reads) :
    digestFile fs filepath = .ok (finalize (readLoop reads init)).digest := by
  simp only [digestFile, h]

theorem fileToHash_opened (fs : FileSystem) (filepath : String) (reads : List ReadResult)
    (h : fs filepath = some reads) :
    fileToHash fs filepath = .ok (hexDigest (finalize (readLoop reads init)).digest) := by
  simp only [fileToHash, digestFile_opened fs filepath reads h]

theorem readLoop_failed_read (chunk : List UInt8) :
    readLoop [{ bytes := chunk, state := .good }, { bytes := [], state := .bad }] init
      = update init chunk := by
  have h := readLoop_stream [chunk] [] [] IoState.bad rfl
  rw [update_init_nil] at h
  simpa using h

/-! ## The claims -/

set_option maxRecDepth 100000 in
/-- C2: `toHash` returns the published MD5 test vectors for `""`, `"a"` and `"abc"`. -/
theorem toHash_test_vectors :
    toHash (asciiBytes "") = "d41d8cd98f00b204e9800998ecf8427e" ∧
    toHash (asciiBytes "a") = "0cc175b9c0f1b6a831c399e269772661" ∧
    toHash (asciiBytes "abc") = "900150983cd24fb0d6963f7d28e17f72" := by
  decide

/-- C3: chunking invariance.  Feeding the chunks of any split of a message to a fresh
object by successive `update` calls and finalizing gives the 16 digest bytes of
`digestString` on the whole message (one byte at a time included); and for every
state, two successive updates are one update with the concatenation. -/
theorem chunking_invariance :
    (∀ chunks : List (List UInt8),
      (finalize (chunks.foldl update init)).digest = digestString chunks.flatten ∧
      (finalize (chunks.foldl update init)).digest.length = 16) ∧
    (∀ x : List UInt8,
      (finalize ((x.map (fun b => [b])).foldl update init)).digest = digestString x) ∧
    (∀ (s : State) (a b : List UInt8), update (update s a) b = update s (a ++ b)) := by
  refine ⟨fun chunks => ⟨?_, rfl⟩, fun x => ?_, update_append⟩
  · rw [foldl_update_init]; rfl
  · rw [foldl_update_init]
    have h : (x.map (fun b => [b])).flatten = x := by
      induction x with
      | nil => rfl
      | cons b rest ih => simp only [List.map_cons, List.flatten_cons, ih]; rfl
    rw [h]; rfl

/-- C4: for every input, `toHash` has exactly 32 characters, each one of `0-9` or
`a-f`. -/
theorem toHash_lowercase_hex (x : List UInt8) :
    (toHash x).length = 32 ∧ (toHash x).data.all isLowerHex = true := by
  constructor
  · show (hexDigest (digestString x)).data.length = 32
    rw [hexDigest_data, length_flatMap_hexByte, List.length_range]
  · rw [List.all_eq_true]
    intro c hc
    have hc2 : c ∈ (hexDigest (digestString x)).data := hc
    rw [hexDigest_data, List.mem_flatMap] at hc2
    obtain ⟨i, _, hi⟩ := hc2
    exact hexByte_lower _ c hi

/-- C5: the hex string is a faithful encoding of the digest.  For every `i < 16`,
character `2i` of `toHash x` is the hex digit of byte `i` of the digest divided by 16
and character `2i+1` the hex digit of that byte modulo 16; decoding `toHash x` as
two-digit hexadecimal bytes gives back `digestString x`; and `fileToHash` renders the
digest of `digestFile` the same way. -/
theorem toHash_faithful (x : List UInt8) :
    (∀ i : Fin 16,
      (toHash x).data[2 * i.val]? = some (hexDigit (((digestString x).getD i.val 0).toNat / 16)) ∧
      (toHash x).data[2 * i.val + 1]?
        = some (hexDigit (((digestString x).getD i.val 0).toNat % 16))) ∧
    decodeHex (toHash x).data = digestString x ∧
    (∀ (fs : FileSystem) (filepath : String),
      fileToHash fs filepath = (digestFile fs filepath).map hexDigest) := by
  refine ⟨fun i => ?_, ?_, fun fs filepath => ?_⟩
  · exact getElem?_flatMap_hexByte 16 (digestString x) i.val i.isLt
  · show decodeHex (hexDigest (digestString x)).data = digestString x
    rw [hexDigest_data, decodeHex_flatMap]
    have h := map_getD_range (digestString x)
    rw [digestString_length] at h
    exact h
  · unfold fileToHash
    cases digestFile fs filepath <;> rfl

/-- C6: hashing a file gives the digest of its content.  For a file that opens and
delivers the content `x` as consecutive 4096-byte reads (the last one shorter,
possibly empty), the read loop followed by `finalize` yields `digestString x`, so
`digestFile` returns `digestString x` and `fileToHash` returns `toHash x`. -/
theorem digestFile_eq_digestString (x : List UInt8) (fs : FileSystem) (filepath : String)
    (h : fs filepath = some (fileReads x)) :
    (finalize (readLoop (fileReads x) init)).digest = digestString x ∧
    digestFile fs filepath = .ok (digestString x) ∧
    fileToHash fs filepath = .ok (toHash x) := by
  refine ⟨?_, ?_, ?_⟩
  · rw [readLoop_fileReads]; rfl
  · rw [digestFile_opened fs filepath _ h, readLoop_fileReads]; rfl
  · rw [fileToHash_opened fs filepath _ h, readLoop_fileReads]; rfl

theorem digestFile_eq_digestString_witness :
    (fun _ : String => some (fileReads [0x61, 0x62, 0x63])) "abc.txt"
        = some (fileReads [0x61, 0x62, 0x63]) ∧
    (finalize (readLoop (fileReads [0x61, 0x62, 0x63]) init)).digest
        = digestString [0x61, 0x62, 0x63] ∧
    digestFile (fun _ => some (fileReads [0x61, 0x62, 0x63])) "abc.txt"
        = .ok (digestString [0x61, 0x62, 0x63]) ∧
    fileToHash (fun _ => some (fileReads [0x61, 0x62, 0x63])) "abc.txt"
        = .ok (toHash [0x61, 0x62, 0x63]) :=
  ⟨rfl, digestFile_eq_digestString [0x61, 0x62, 0x63]
    (fun _ => some (fileReads [0x61, 0x62, 0x63])) "abc.txt" rfl⟩

/-- C7, the code at the failing input: on a file whose first read delivers 4096 bytes
and whose second read fails (`badbit`), `digestFile` returns the digest of the 4096
bytes read so far and `fileToHash` its hex string; no error is raised. -/
theorem digestFile_failed_read_gives_prefix_digest :
    digestFile
        (fun _ => some [{ bytes := List.replicate 4096 0x61, state := .good },
                        { bytes := [], state := .bad }]) "data.bin"
      = .ok (digestString (List.replicate 4096 0x61)) ∧
    fileToHash
        (fun _ => some [{ bytes := List.replicate 4096 0x61, state := .good },
                        { bytes := [], state := .bad }]) "data.bin"
      = .ok (toHash (List.replicate 4096 0x61)) := by
  constructor
  · rw [digestFile_opened _ _ _ rfl, readLoop_failed_read]; rfl
  · rw [fileToHash_opened _ _ _ rfl, readLoop_failed_read]; rfl

/-- C8: for every path that cannot be opened, `digestFile` and `fileToHash` raise the
error "Cannot open file: <path>" and return no digest and no hex string. -/
theorem digestFile_unopenable (fs : FileSystem) (filepath : String)
    (h : fs filepath = none) :
    digestFile fs filepath = .error ("Cannot open file: " ++ filepath) ∧
    fileToHash fs filepath = .error ("Cannot open file: " ++ filepath) ∧
    (∀ d : List UInt8, digestFile fs filepath ≠ .ok d) ∧
    (∀ t : String, fileToHash fs filepath ≠ .ok t) := by
  have hd : digestFile fs filepath = .error ("Cannot open file: " ++ filepath) := by
    simp only [digestFile, h]
  have hf : fileToHash fs filepath = .error ("Cannot open file: " ++ filepath) := by
    simp only [fileToHash, hd]
  refine ⟨hd, hf, fun d => ?_, fun t => ?_⟩
  · rw [hd]; exact fun e => nomatch e
  · rw [hf]; exact fun e => nomatch e

theorem digestFile_unopenable_witness :
    (fun _ : String => (none : Option (List ReadResult))) "missing.txt" = none ∧
    digestFile (fun _ => none) "missing.txt" = .error ("Cannot open file: " ++ "missing.txt") ∧
    fileToHash (fun _ => none) "missing.txt" = .error ("Cannot open file: " ++ "missing.txt") ∧
    (∀ d : List UInt8, digestFile (fun _ => none) "missing.txt" ≠ .ok d) ∧
    (∀ t : String, fileToHash (fun _ => none) "missing.txt" ≠ .ok t) :=
  ⟨rfl, digestFile_unopenable (fun _ => none) "missing.txt" rfl⟩

/-- C9: for every state the padding length of `finalize` lies between 1 and 64, makes
`size + pad_length + 8` a multiple of 64, is the smallest positive number of bytes
doing so, and after the padding has been absorbed the buffer offset is exactly 56. -/
theorem paddingLength_spec (s : State) :
    1 ≤ paddingLength s ∧ paddingLength s ≤ 64 ∧
    (s.size + paddingLength s + 8) % 64 = 0 ∧
    (∀ p : Fin (paddingLength s), p.val = 0 ∨ (s.size + p.val + 8) % 64 ≠ 0) ∧
    (∀ s1 : State,
      (updateLoop (padding.take (paddingLength s)) (s.size % 64) s1).1 = 56) ∧
    (update s (padding.take (paddingLength s))).size % 64 = 56 := by
  have hlt := Nat.mod_lt s.size (show 64 > 0 by decide)
  have hlen := padding_take_length s
  have hval : paddingLength s = if s.size % 64 < 56 then 56 - s.size % 64
      else 120 - s.size % 64 := rfl
  refine ⟨paddingLength_pos s, paddingLength_le s, ?_, fun p => ?_, fun s1 => ?_, ?_⟩
  · rw [hval]; split <;> omega
  · have hp : p.val < paddingLength s := p.isLt
    generalize p.val = q at hp ⊢
    rw [hval] at hp
    split at hp <;> omega
  · rw [updateLoop_offset _ _ _ hlt, hlen, hval]
    split <;> omega
  · rw [update_size, size_mod, hlen, hval]
    split <;> omega

/-- C10: the length field of the final block is the original message length.  For a
state whose byte counter is `n`, `finalize` compresses a last block of 16 words whose
word 14 is the low and word 15 the high 32 bits of `(8 * n) mod 2^64`, and the size
after `finalize` is `n` again. -/
theorem finalize_length_field (s : State) (hs : s.size < 2 ^ 64) :
    (finalize s).buffer
      = compress (update s (padding.take (paddingLength s))).buffer
          (finalBlock (finalizePadded s)) ∧
    (finalBlock (finalizePadded s)).length = 16 ∧
    (finalBlock (finalizePadded s))[14]? = some ((8 * s.size) % 2 ^ 64 % 2 ^ 32) ∧
    (finalBlock (finalizePadded s))[15]? = some ((8 * s.size) % 2 ^ 64 / 2 ^ 32) ∧
    (finalizePadded s).size = s.size ∧
    (finalize s).size = s.size := by
  have hle := paddingLength_le s
  have hsz : (finalizePadded s).size = s.size := by
    simp only [finalizePadded]
    rw [update_size, padding_take_length]
    simp only [u64]
    simp only [Nat.reducePow] at hs
    omega
  have hlen14 : (decodeBlock (finalizePadded s).input 14).length = 14 := by
    simp [decodeBlock]
  refine ⟨rfl, ?_, ?_, ?_, hsz, hsz⟩
  · simp [finalBlock, decodeBlock]
  · unfold finalBlock
    rw [List.getElem?_append_right (by omega), hlen14, hsz]
    simp only [u64, u32, Nat.reducePow, Nat.sub_self, List.getElem?_cons_zero, Option.some.injEq]
    omega
  · unfold finalBlock
    rw [List.getElem?_append_right (by omega), hlen14, hsz, Nat.shiftRight_eq_div_pow]
    simp only [u64, u32, Nat.reducePow, show 15 - 14 = 1 by rfl, List.getElem?_cons_succ,
      List.getElem?_cons_zero, Option.some.injEq]
    omega

theorem finalize_length_field_witness :
    (update init [0x61, 0x62, 0x63]).size < 2 ^ 64 ∧
    (finalBlock (finalizePadded (update init [0x61, 0x62, 0x63])))[14]?
      = some ((8 * (update init [0x61, 0x62, 0x63]).size) % 2 ^ 64 % 2 ^ 32) ∧
    (finalize (update init [0x61, 0x62, 0x63])).size = (update init [0x61, 0x62, 0x63]).size :=
  ⟨by decide,
    (finalize_length_field (update init [0x61, 0x62, 0x63]) (by decide)).2.2.1,
    (finalize_length_field (update init [0x61, 0x62, 0x63]) (by decide)).2.2.2.2.2⟩

/-- C11: the padding sequence is one `0x80` byte followed only by zero bytes.  The
static array has 64 entries, `padding[0] = 0x80` and `padding[i] = 0` for every `i` in
`[1,64)`; `finalize` absorbs exactly its first `padding_length` bytes, which are
`0x80` followed by `padding_length - 1` zero bytes. -/
theorem padding_sequence :
    padding.length = 64 ∧
    padding[0]? = some 0x80 ∧
    (∀ i : Fin 63, padding[i.val + 1]? = some 0) ∧
    (∀ s : State,
      finalizePadded s =
        { update s (padding.take (paddingLength s)) with
          size := ((update s (padding.take (paddingLength s))).size + u64 - paddingLength s)
            % u64 } ∧
      (padding.take (paddingLength s)).length = paddingLength s ∧
      padding.take (paddingLength s) = 0x80 :: List.replicate (paddingLength s - 1) 0) := by
  refine ⟨by decide, by decide, by decide, fun s => ⟨rfl, padding_take_length s, ?_⟩⟩
  have h1 := paddingLength_pos s
  have h2 := paddingLength_le s
  have h := padding_take (paddingLength s - 1) (by omega)
  rw [show paddingLength s - 1 + 1 = paddingLength s by omega] at h
  exact h

/-- C16: the per-step rotation table follows the stated pattern: for every `i` in
`[0,64)`, `shift[i]` is entry `i mod 4` of `(7,12,17,22)`, `(5,9,14,20)`,
`(4,11,16,23)` or `(6,10,15,21)` according to the round of `i`. -/
theorem shift_pattern : shift.length = 64 ∧ ∀ i : Fin 64, shift[i.val]? = some (refShift i.val) := by
  decide

/-- C19: in each of the four rounds the block-word index is a permutation of the
sixteen words.  The index of step `i` is `i`, `(5i+1) mod 16`, `(3i+5) mod 16`,
`7i mod 16` by round; the sixteen indices of a round are a rearrangement of
`0..15`, so every word is used exactly once per round and four times per
compression. -/
theorem stepIdx_permutation :
    (∀ i : Fin 64, stepIdx i.val = refIdx i.val) ∧
    (∀ r : Fin 4,
      List.Perm ((List.range 16).map (fun i => stepIdx (16 * r.val + i))) (List.range 16)) ∧
    (∀ r : Fin 4, ∀ w : Fin 16,
      ((List.range 16).map (fun i => stepIdx (16 * r.val + i))).count w.val = 1) ∧
    (∀ w : Fin 16, ((List.range 64).map stepIdx).count w.val = 4) := by
  refine ⟨by decide, by decide, by decide, by decide⟩

/-! ## The pending bytes -/

/-- For every message absorbed by any sequence of `update` calls the counter is the
length modulo `2^64`, and the buffer starts with the bytes after the last full block. -/
theorem pending_bytes_spec (chunks : List (List UInt8)) :
    (chunks.foldl update init).size = chunks.flatten.length % 2 ^ 64 ∧
    (chunks.foldl update init).input.length = 64 ∧
    (chunks.foldl update init).input.take (chunks.flatten.length % 64)
      = chunks.flatten.drop (chunks.flatten.length - chunks.flatten.length % 64) := by
  rw [foldl_update_init]
  obtain ⟨_, hl, ht⟩ := update_init_spec chunks.flatten
  refine ⟨?_, hl, ?_⟩
  · rw [update_size]; simp [init, u64]
  · rw [ht]
    congr 1
    omega

/-- C12: the pending-bytes invariant.  For every message `m` of fewer than `2^64` bytes
absorbed into a fresh object by any sequence of `update` calls, with
`k = |m| mod 64`, the counter `size` is `|m|`, the working buffer has 64 bytes and its
first `k` bytes are exactly the last `k` bytes of `m`. -/
theorem pending_invariant (chunks : List (List UInt8))
    (h : chunks.flatten.length < 2 ^ 64) :
    (chunks.foldl update init).size = chunks.flatten.length ∧
    (chunks.foldl update init).input.length = 64 ∧
    (chunks.foldl update init).input.take (chunks.flatten.length % 64)
      = chunks.flatten.drop (chunks.flatten.length - chunks.flatten.length % 64) := by
  obtain ⟨h1, h2, h3⟩ := pending_bytes_spec chunks
  exact ⟨by rw [h1]; exact Nat.mod_eq_of_lt h, h2, h3⟩

theorem pending_invariant_witness :
    ([[0x61], [], [0x62, 0x63]] : List (List UInt8)).flatten.length < 2 ^ 64 ∧
    ([[0x61], [], [0x62, 0x63]].foldl update init).size
      = ([[0x61], [], [0x62, 0x63]] : List (List UInt8)).flatten.length ∧
    ([[0x61], [], [0x62, 0x63]].foldl update init).input.take 3 = [0x61, 0x62, 0x63] :=
  ⟨by decide, (pending_invariant [[0x61], [], [0x62, 0x63]] (by decide)).1,
    (pending_invariant [[0x61], [], [0x62, 0x63]] (by decide)).2.2⟩

/-! ## Updates inside one block -/

/-- A run of bytes that does not complete the block only overwrites the buffer. -/
theorem updateLoop_short (a : List UInt8) (offset : Nat) (s : State)
    (hlen : s.input.length = 64) (h : offset + a.length < 64) :
    updateLoop a offset s =
      (offset + a.length,
        { s with input := s.input.take offset ++ a ++ s.input.drop (offset + a.length) }) := by
  induction a generalizing offset s with
  | nil => simp [updateLoop]
  | cons b rest ih =>
    simp only [List.length_cons] at h
    simp only [updateLoop]
    rw [if_neg (by omega), ih _ _ (by simp [hlen]) (by omega)]
    simp only [List.length_cons, Prod.mk.injEq]
    refine ⟨by omega, ?_⟩
    congr 1
    rw [take_set_succ _ _ _ (by omega), List.drop_set_of_lt _ _ (by omega)]
    simp only [List.append_assoc, List.singleton_append]
    congr 2
    congr 1
    omega

/-- A run of bytes that completes the block exactly: one compression of the block. -/
theorem updateLoop_fill (a : List UInt8) (offset : Nat) (s : State)
    (hlen : s.input.length = 64) (h : offset + a.length = 64) (ho : offset < 64) :
    updateLoop a offset s =
      (0, step { s with input := s.input.take offset ++ a }
            (decodeBlock (s.input.take offset ++ a) 16)) := by
  have hne : a ≠ [] := by
    intro h0; rw [h0] at h; simp at h; omega
  obtain ⟨b, hb⟩ : ∃ b, a = a.dropLast ++ [b] :=
    ⟨a.getLast hne, (List.dropLast_append_getLast hne).symm⟩
  have hdl : a.dropLast.length = a.length - 1 := List.length_dropLast a
  have hpos : 0 < a.length := List.length_pos.mpr hne
  rw [hb, updateLoop_append, updateLoop_short _ _ _ hlen (by omega)]
  simp only [updateLoop]
  rw [if_pos (by omega)]
  have hset : (s.input.take offset ++ a.dropLast ++ s.input.drop (offset + a.dropLast.length)).set
      (offset + a.dropLast.length) b = s.input.take offset ++ (a.dropLast ++ [b]) := by
    have hl : (s.input.take offset ++ a.dropLast).length = offset + a.dropLast.length := by
      simp [List.length_take]; omega
    rw [List.set_append_right _ _ (by omega), hl, Nat.sub_self]
    have hd : (s.input.drop (offset + a.dropLast.length)).length = 1 := by
      rw [List.length_drop]; omega
    match hx : s.input.drop (offset + a.dropLast.length), hd with
    | [c], _ => simp
  rw [hset]

theorem update_short (s : State) (a : List UInt8) (hlen : s.input.length = 64)
    (h : s.size % 64 + a.length < 64) :
    (update s a).buffer = s.buffer ∧
    (update s a).input
      = s.input.take (s.size % 64) ++ a ++ s.input.drop (s.size % 64 + a.length) := by
  have hl := updateLoop_short a (s.size % 64)
    { s with size := (s.size + a.length) % u64 } hlen h
  simp only [update]
  rw [hl]
  exact ⟨rfl, rfl⟩

theorem update_fill (s : State) (a : List UInt8) (hlen : s.input.length = 64)
    (h : s.size % 64 + a.length = 64) :
    (update s a).buffer
      = compress s.buffer (decodeBlock (s.input.take (s.size % 64) ++ a) 16) ∧
    (update s a).input = s.input.take (s.size % 64) ++ a := by
  have hl := updateLoop_fill a (s.size % 64)
    { s with size := (s.size + a.length) % u64 } hlen h (Nat.mod_lt _ (by decide))
  simp only [update]
  rw [hl]
  exact ⟨rfl, rfl⟩

/-- C13: `update` changes the accumulator only by compressing completed blocks.  For
every state and every input with `(size mod 64) + n < 64` the four accumulator words
after `update` are the same as before; when `(size mod 64) + n = 64` they are exactly
one compression of the accumulator with the 64 buffered bytes (the pending bytes
followed by the input) read as sixteen little-endian words. -/
theorem update_accumulator_frame (s : State) (a : List UInt8) (hlen : s.input.length = 64)
    (h : s.size % 64 + a.length ≤ 64) :
    (update s a).buffer =
      (if s.size % 64 + a.length = 64 then
        compress s.buffer (refWords (s.input.take (s.size % 64) ++ a))
      else s.buffer) ∧
    (update s a).input
      = s.input.take (s.size % 64) ++ a ++ s.input.drop (s.size % 64 + a.length) := by
  by_cases h64 : s.size % 64 + a.length = 64
  · obtain ⟨hb, hi⟩ := update_fill s a hlen h64
    rw [if_pos h64, hb, hi, decodeBlock_eq_refWords]
    refine ⟨rfl, ?_⟩
    rw [List.drop_of_length_le (by omega), List.append_nil]
  · obtain ⟨hb, hi⟩ := update_short s a hlen (by omega)
    rw [if_neg h64, hb, hi]
    exact ⟨rfl, rfl⟩

theorem update_accumulator_frame_witness :
    init.input.length = 64 ∧ init.size % 64 + (List.replicate 64 (0x61 : UInt8)).length ≤ 64 ∧
    (update init (List.replicate 64 0x61)).buffer =
      (if init.size % 64 + (List.replicate 64 (0x61 : UInt8)).length = 64 then
        compress init.buffer
          (refWords (init.input.take (init.size % 64) ++ List.replicate 64 0x61))
      else init.buffer) :=
  ⟨by decide, by decide,
    (update_accumulator_frame init (List.replicate 64 0x61) (by decide) (by decide)).1⟩

/-! ## Serialisation of the digest -/

theorem encodeDigest_four (a b c d : Nat) :
    encodeDigest [a, b, c, d] = refEncode a ++ refEncode b ++ refEncode c ++ refEncode d := by
  have h : encodeWord = refEncode := funext encodeWord_eq
  unfold encodeDigest
  rw [h]
  rfl

theorem compress_words (acc blk : List Nat) :
    ∃ a b c d, compress acc blk = [a, b, c, d] ∧
      a < 4294967296 ∧ b < 4294967296 ∧ c < 4294967296 ∧ d < 4294967296 :=
  ⟨_, _, _, _, rfl, Nat.mod_lt _ (by decide), Nat.mod_lt _ (by decide),
    Nat.mod_lt _ (by decide), Nat.mod_lt _ (by decide)⟩

theorem refEncode_byte (w : Nat) (j : Fin 4) :
    ((refEncode w)[j.val]?).map UInt8.toNat = some (w / 2 ^ (8 * j.val) % 256) := by
  fin_cases j <;> simp [refEncode, ofNat_toNat]

theorem decodeWord_refEncode (pre post : List UInt8) (w idx : Nat) (h : pre.length = 4 * idx)
    (hw : w < 4294967296) : decodeWord (pre ++ refEncode w ++ post) idx = w := by
  rw [decodeWord_eq]
  have g (j : Nat) (hj : j < 4) : (pre ++ refEncode w ++ post).getD (4 * idx + j) 0
      = (refEncode w).getD j 0 := by
    rw [List.getD_eq_getElem?_getD, List.getD_eq_getElem?_getD, List.append_assoc,
      List.getElem?_append_right (by omega), h, Nat.add_sub_cancel_left,
      List.getElem?_append_left (by simp [refEncode]; omega)]
  have g0 := g 0 (by omega)
  rw [Nat.add_zero] at g0
  rw [g0, g 1 (by omega), g 2 (by omega), g 3 (by omega)]
  simp only [refEncode, List.getD_cons_zero, List.getD_cons_succ, ofNat_toNat]
  omega

theorem getElem?_mid (pre l post : List UInt8) (n j : Nat) (hn : pre.length = n)
    (hj : j < l.length) : (pre ++ l ++ post)[n + j]? = l[j]? := by
  rw [List.append_assoc, List.getElem?_append_right (by omega), hn, Nat.add_sub_cancel_left,
    List.getElem?_append_left hj]

/-- C14: the digest produced by `finalize` is the little-endian serialization of the
accumulator.  It has 16 bytes, `digest[4*i + j] = (accumulator[i] div 2^(8*j)) mod 256`
for all `i, j` in `[0,4)`, and reading it back as four little-endian 32-bit words
gives the four accumulator words. -/
theorem digest_serialization (s : State) :
    (finalize s).digest.length = 16 ∧
    (finalize s).buffer.length = 4 ∧
    (∀ i j : Fin 4,
      ((finalize s).digest[4 * i.val + j.val]?).map UInt8.toNat
        = some ((finalize s).buffer.getD i.val 0 / 2 ^ (8 * j.val) % 256)) ∧
    (List.range 4).map (decodeWord (finalize s).digest) = (finalize s).buffer := by
  obtain ⟨a, b, c, d, hc, ha, hb, hcc, hd⟩ :=
    compress_words (finalizePadded s).buffer (finalBlock (finalizePadded s))
  have hbuf : (finalize s).buffer = [a, b, c, d] := hc
  have hdig : (finalize s).digest
      = refEncode a ++ refEncode b ++ refEncode c ++ refEncode d := by
    show encodeDigest (compress _ _) = _
    rw [hc, encodeDigest_four]
  refine ⟨rfl, rfl, ?_, ?_⟩
  · intro i j
    rw [hbuf, hdig]
    have hj : j.val < 4 := j.isLt
    have g0 := getElem?_mid [] (refEncode a) (refEncode b ++ refEncode c ++ refEncode d)
      0 j.val rfl hj
    have g1 := getElem?_mid (refEncode a) (refEncode b) (refEncode c ++ refEncode d)
      4 j.val rfl hj
    have g2 := getElem?_mid (refEncode a ++ refEncode b) (refEncode c) (refEncode d)
      8 j.val rfl hj
    have g3 := getElem?_mid (refEncode a ++ refEncode b ++ refEncode c) (refEncode d) []
      12 j.val rfl hj
    simp only [List.nil_append, List.append_nil, List.append_assoc] at g0 g1 g2 g3 ⊢
    fin_cases i
    · show Option.map UInt8.toNat (_)[4 * 0 + j.val]? = _
      rw [show 4 * 0 + j.val = 0 + j.val by omega, g0]
      exact refEncode_byte a j
    · show Option.map UInt8.toNat (_)[4 * 1 + j.val]? = _
      rw [show 4 * 1 + j.val = 4 + j.val by omega, g1]
      exact refEncode_byte b j
    · show Option.map UInt8.toNat (_)[4 * 2 + j.val]? = _
      rw [show 4 * 2 + j.val = 8 + j.val by omega, g2]
      exact refEncode_byte c j
    · show Option.map UInt8.toNat (_)[4 * 3 + j.val]? = _
      rw [show 4 * 3 + j.val = 12 + j.val by omega, g3]
      exact refEncode_byte d j
  · rw [hbuf, hdig]
    have e0 := decodeWord_refEncode [] (refEncode b ++ refEncode c ++ refEncode d) a 0 rfl ha
    have e1 := decodeWord_refEncode (refEncode a) (refEncode c ++ refEncode d) b 1 rfl hb
    have e2 := decodeWord_refEncode (refEncode a ++ refEncode b) (refEncode d) c 2 rfl hcc
    have e3 := decodeWord_refEncode (refEncode a ++ refEncode b ++ refEncode c) [] d 3 rfl hd
    simp only [List.nil_append, List.append_nil, List.append_assoc] at e0 e1 e2 e3 ⊢
    rw [show List.range 4 = [0, 1, 2, 3] by decide]
    simp only [List.map_cons, List.map_nil, e0, e1, e2, e3]

/-! ## The rotation -/

theorem rotateLeft_eq_add (x n : Nat) (hx : x < 2 ^ 32) (h0 : 0 < n) (hn : n < 32) :
    rotateLeft x n = (x * 2 ^ n) % 2 ^ 32 + x / 2 ^ (32 - n) := by
  unfold rotateLeft u32
  rw [Nat.shiftLeft_eq, Nat.shiftRight_eq_div_pow]
  have hp : (2 : Nat) ^ 32 = 2 ^ (32 - n) * 2 ^ n := by
    rw [← Nat.pow_add]; congr 1; omega
  have hm : (x * 2 ^ n) % 2 ^ 32 = 2 ^ n * (x % 2 ^ (32 - n)) := by
    rw [hp, Nat.mul_mod_mul_right, Nat.mul_comm]
  have hlt : x / 2 ^ (32 - n) < 2 ^ n := by
    rw [Nat.div_lt_iff_lt_mul (Nat.two_pow_pos _)]
    rw [Nat.mul_comm, ← hp]; exact hx
  rw [show (4294967296 : Nat) = 2 ^ 32 by rfl, hm]
  exact (Nat.mul_add_lt_is_or hlt _).symm

theorem rotateLeft_lt (x n : Nat) (hx : x < 2 ^ 32) (h0 : 0 < n) (hn : n < 32) :
    rotateLeft x n < 2 ^ 32 := by
  rw [rotateLeft_eq_add x n hx h0 hn]
  have hp : (2 : Nat) ^ 32 = 2 ^ (32 - n) * 2 ^ n := by
    rw [← Nat.pow_add]; congr 1; omega
  have hm : (x * 2 ^ n) % 2 ^ 32 = 2 ^ n * (x % 2 ^ (32 - n)) := by
    rw [hp, Nat.mul_mod_mul_right, Nat.mul_comm]
  have hlt : x / 2 ^ (32 - n) < 2 ^ n := by
    rw [Nat.div_lt_iff_lt_mul (Nat.two_pow_pos _)]
    rw [Nat.mul_comm, ← hp]; exact hx
  have hr : x % 2 ^ (32 - n) < 2 ^ (32 - n) := Nat.mod_lt _ (Nat.two_pow_pos _)
  rw [hm, hp]
  have : 2 ^ n * (x % 2 ^ (32 - n)) + 2 ^ n ≤ 2 ^ n * 2 ^ (32 - n) := by
    rw [← Nat.mul_succ]; exact Nat.mul_le_mul_left _ hr
  rw [Nat.mul_comm (2 ^ (32 - n))]
  omega

theorem rotateLeft_testBit (x n p : Nat) (hx : x < 2 ^ 32) (h0 : 0 < n) (hn : n < 32)
    (hp : p < 32) : (rotateLeft x n).testBit ((p + n) % 32) = x.testBit p := by
  unfold rotateLeft u32
  rw [show (4294967296 : Nat) = 2 ^ 32 by rfl, Nat.testBit_or, Nat.testBit_mod_two_pow,
    Nat.testBit_shiftLeft, Nat.testBit_shiftRight]
  by_cases h : p + n < 32
  · have hq : (p + n) % 32 = p + n := Nat.mod_eq_of_lt h
    have hhigh : x.testBit (32 - n + (p + n)) = false :=
      Nat.testBit_lt_two_pow (Nat.lt_of_lt_of_le hx (Nat.pow_le_pow_right (by decide) (by omega)))
    rw [hq, hhigh]
    simp [h]
  · have hq : (p + n) % 32 = p + n - 32 := by omega
    rw [hq, show 32 - n + (p + n - 32) = p by omega]
    have : ¬ (p + n - 32 ≥ n) := by omega
    simp [this]

theorem rotateLeft_inverse (x n : Nat) (hx : x < 2 ^ 32) (h0 : 0 < n) (hn : n < 32) :
    rotateLeft (rotateLeft x n) (32 - n) = x := by
  apply Nat.eq_of_testBit_eq
  intro q
  by_cases hq : q < 32
  · have h1 := rotateLeft_testBit x n q hx h0 hn hq
    have h2 := rotateLeft_testBit (rotateLeft x n) (32 - n) ((q + n) % 32)
      (rotateLeft_lt x n hx h0 hn) (by omega) (by omega) (Nat.mod_lt _ (by decide))
    rw [show ((q + n) % 32 + (32 - n)) % 32 = q by omega] at h2
    rw [h2, h1]
  · have hlt := rotateLeft_lt (rotateLeft x n) (32 - n) (rotateLeft_lt x n hx h0 hn)
      (by omega) (by omega)
    have hge : (2 : Nat) ^ 32 ≤ 2 ^ q := Nat.pow_le_pow_right (by decide) (by omega)
    rw [Nat.testBit_lt_two_pow (Nat.lt_of_lt_of_le hlt hge),
      Nat.testBit_lt_two_pow (Nat.lt_of_lt_of_le hx hge)]

theorem shift_range : ∀ i : Fin 64, 0 < shift.getD i.val 0 ∧ shift.getD i.val 0 < 32 := by
  decide

/-- C15: `rotateLeft` is a 32-bit circular left shift for every amount the engine
uses.  For every 32-bit `x` and every entry `n` of the shift table,
`rotateLeft x n = (x * 2^n) mod 2^32 + x div 2^(32 - n)`, the result is a 32-bit
value, bit `p` of `x` is bit `(p + n) mod 32` of the result, and rotating the result
by `32 - n` gives `x` back. -/
theorem rotateLeft_circular (x : Fin (2 ^ 32)) (i : Fin 64) :
    rotateLeft x.val (shift.getD i.val 0)
      = (x.val * 2 ^ shift.getD i.val 0) % 2 ^ 32 + x.val / 2 ^ (32 - shift.getD i.val 0) ∧
    rotateLeft x.val (shift.getD i.val 0) < 2 ^ 32 ∧
    (∀ p : Fin 32,
      (rotateLeft x.val (shift.getD i.val 0)).testBit ((p.val + shift.getD i.val 0) % 32)
        = x.val.testBit p.val) ∧
    rotateLeft (rotateLeft x.val (shift.getD i.val 0)) (32 - shift.getD i.val 0) = x.val := by
  obtain ⟨h0, hn⟩ := shift_range i
  exact ⟨rotateLeft_eq_add _ _ x.isLt h0 hn, rotateLeft_lt _ _ x.isLt h0 hn,
    fun p => rotateLeft_testBit _ _ _ x.isLt h0 hn p.isLt,
    rotateLeft_inverse _ _ x.isLt h0 hn⟩

/-! ## Checked array accesses -/

theorem readAt_lt {α : Type} (l : List α) (i : Nat) (d : α) (h : i < l.length) :
    readAt l i = some (l.getD i d) := by
  unfold readAt
  rw [if_pos h, List.getD_eq_getElem?_getD, List.getElem?_eq_getElem h]
  rfl

theorem writeAt_lt {α : Type} (l : List α) (i : Nat) (a : α) (h : i < l.length) :
    writeAt l i a = some (l.set i a) := by
  unfold writeAt
  rw [if_pos h]

theorem decodeWordChecked_eq (input : List UInt8) (idx : Nat) (h : idx * 4 + 3 < input.length) :
    decodeWordChecked input idx = some (decodeWord input idx) := by
  unfold decodeWordChecked decodeWord
  rw [readAt_lt input _ 0 h, readAt_lt input _ 0 (by omega), readAt_lt input _ 0 (by omega),
    readAt_lt input _ 0 (by omega)]
  rfl

theorem decodeBlockChecked_eq (input : List UInt8) (l : List Nat)
    (h : ∀ idx ∈ l, idx * 4 + 3 < input.length) :
    decodeBlockChecked input l = some (l.map (decodeWord input)) := by
  induction l with
  | nil => rfl
  | cons idx rest ih =>
    unfold decodeBlockChecked
    rw [decodeWordChecked_eq input idx (h idx (List.mem_cons_self _ _)),
      ih (fun j hj => h j (List.mem_cons_of_mem _ hj))]
    rfl

theorem stepIdx_lt : ∀ i : Fin 64, stepIdx i.val < 16 := by decide

theorem stepRoundChecked_eq (inputVec : List Nat) (r : Regs) (i : Nat) (hi : i < 64)
    (hv : inputVec.length = 16) :
    stepRoundChecked inputVec r i = some (stepRound inputVec r i) := by
  unfold stepRoundChecked stepRound
  simp only []
  have h1 : i < sineDerivation.length := by
    rw [show sineDerivation.length = 64 by decide]; exact hi
  have h2 : stepIdx i < inputVec.length := by
    rw [hv]; exact stepIdx_lt ⟨i, hi⟩
  have h3 : i < shift.length := by
    rw [show shift.length = 64 by decide]; exact hi
  rw [readAt_lt sineDerivation i 0 h1, readAt_lt inputVec _ 0 h2, readAt_lt shift i 0 h3]
  rfl

theorem stepLoopChecked_eq (inputVec : List Nat) (l : List Nat) (r : Regs)
    (h : ∀ i ∈ l, i < 64) (hv : inputVec.length = 16) :
    stepLoopChecked inputVec l r = some (l.foldl (stepRound inputVec) r) := by
  induction l generalizing r with
  | nil => rfl
  | cons i rest ih =>
    unfold stepLoopChecked
    rw [stepRoundChecked_eq inputVec r i (h i (List.mem_cons_self _ _)) hv]
    exact ih _ (fun j hj => h j (List.mem_cons_of_mem _ hj))

theorem stepChecked_eq (s : State) (inputVec : List Nat) (hb : s.buffer.length = 4)
    (hv : inputVec.length = 16) : stepChecked s inputVec = some (step s inputVec) := by
  obtain ⟨sz, buffer, input, digest⟩ := s
  simp only at hb
  rcases buffer with _ | ⟨a0, _ | ⟨a1, _ | ⟨a2, _ | ⟨a3, _ | ⟨a4, rest⟩⟩⟩⟩⟩ <;>
    simp only [List.length_cons, List.length_nil] at hb <;> try omega
  unfold stepChecked
  simp only []
  rw [readAt_lt [a0, a1, a2, a3] 0 0 (by simp), readAt_lt [a0, a1, a2, a3] 1 0 (by simp),
    readAt_lt [a0, a1, a2, a3] 2 0 (by simp), readAt_lt [a0, a1, a2, a3] 3 0 (by simp)]
  simp only [Option.bind_eq_bind, Option.some_bind]
  rw [stepLoopChecked_eq inputVec (List.range 64) _
    (fun i hi => List.mem_range.mp hi) hv]
  rfl

theorem updateLoop_lengths (a : List UInt8) (offset : Nat) (s : State) :
    (updateLoop a offset s).2.input.length = s.input.length ∧
    ((updateLoop a offset s).2.buffer.length = 4 ∨
      (updateLoop a offset s).2.buffer = s.buffer) := by
  induction a generalizing offset s with
  | nil => exact ⟨rfl, Or.inr rfl⟩
  | cons b rest ih =>
    simp only [updateLoop]
    split
    · obtain ⟨h1, h2⟩ := ih 0 (step { s with input := s.input.set offset b }
        (decodeBlock (s.input.set offset b) 16))
      refine ⟨?_, ?_⟩
      · rw [h1]; simp [step]
      · rcases h2 with h2 | h2
        · exact Or.inl h2
        · left; rw [h2]; rfl
    · obtain ⟨h1, h2⟩ := ih (offset + 1) { s with input := s.input.set offset b }
      refine ⟨?_, h2⟩
      rw [h1]; simp

theorem update_lengths (s : State) (a : List UInt8) (hb : s.buffer.length = 4)
    (hi : s.input.length = 64) (hd : s.digest.length = 16) :
    (update s a).buffer.length = 4 ∧ (update s a).input.length = 64 ∧
    (update s a).digest.length = 16 := by
  obtain ⟨h1, h2⟩ := updateLoop_lengths a (s.size % 64)
    { s with size := (s.size + a.length) % u64 }
  refine ⟨?_, ?_, ?_⟩
  · rcases h2 with h2 | h2
    · exact h2
    · show (updateLoop a (s.size % 64) _).2.buffer.length = 4
      rw [h2]; exact hb
  · show (updateLoop a (s.size % 64) _).2.input.length = 64
    rw [h1]; exact hi
  · rw [update_digest]; exact hd

theorem drop_take_succ (buf : List UInt8) (i n : Nat) (h : i + (n + 1) ≤ buf.length) :
    (buf.drop i).take (n + 1) = buf.getD i 0 :: (buf.drop (i + 1)).take n := by
  have hi : i < buf.length := by omega
  rw [List.drop_eq_getElem_cons hi, List.take_succ_cons, List.getD_eq_getElem?_getD,
    List.getElem?_eq_getElem hi]
  rfl

theorem updateLoopChecked_eq (buf : List UInt8) (n i offset : Nat) (s : State)
    (hb : s.buffer.length = 4) (hlen : s.input.length = 64) (ho : offset < 64)
    (hi : i + n ≤ buf.length) :
    updateLoopChecked buf n i offset s = some (updateLoop ((buf.drop i).take n) offset s) := by
  induction n generalizing i offset s with
  | zero => simp [updateLoopChecked, updateLoop]
  | succ n ih =>
    rw [drop_take_succ buf i n hi]
    unfold updateLoopChecked
    simp only [updateLoop]
    rw [readAt_lt buf i 0 (by omega)]
    simp only [Option.bind_eq_bind, Option.some_bind]
    rw [writeAt_lt s.input offset _ (by omega)]
    simp only [Option.some_bind]
    split
    · rw [decodeBlockChecked_eq _ (List.range 16)
        (fun idx hidx => by
          have := List.mem_range.mp hidx
          simp only [List.length_set, hlen]; omega)]
      simp only [Option.some_bind]
      have hs := stepChecked_eq { s with input := s.input.set offset (buf.getD i 0) }
        (List.map (decodeWord (s.input.set offset (buf.getD i 0))) (List.range 16)) hb (by simp)
      rw [hs]
      simp only [Option.some_bind]
      exact ih (i + 1) 0 _ rfl (by simp [step, hlen]) (by omega) (by omega)
    · exact ih (i + 1) (offset + 1) _ hb (by simp [hlen]) (by omega) (by omega)

theorem updateChecked_eq (s : State) (buf : List UInt8) (n : Nat) (hb : s.buffer.length = 4)
    (hlen : s.input.length = 64) (hn : n ≤ buf.length) :
    updateChecked s buf n = some (update s (buf.take n)) := by
  have h := updateLoopChecked_eq buf n 0 (s.size % 64)
    { s with size := (s.size + n) % u64 } hb hlen (Nat.mod_lt _ (by decide)) (by omega)
  unfold updateChecked update
  simp only [Option.bind_eq_bind]
  rw [h]
  simp only [Option.some_bind, List.drop_zero, List.length_take, Nat.min_eq_left hn]
  rfl

theorem cons_of_length (l : List UInt8) (n : Nat) (h : l.length = n + 1) :
    ∃ a t, l = a :: t ∧ t.length = n := by
  cases l with
  | nil => simp at h
  | cons a t => exact ⟨a, t, rfl, by simpa using h⟩

theorem writeAt_mid (pre post : List UInt8) (x y : UInt8) (n : Nat) (h : pre.length = n) :
    writeAt (pre ++ x :: post) n y = some (pre ++ y :: post) := by
  subst h
  unfold writeAt
  rw [if_pos (by simp), List.set_append_right _ _ (Nat.le_refl _), Nat.sub_self]
  rfl

/-- The four checked writes of one word of the digest. -/
theorem encodeDigestChecked_cons (buffer : List Nat) (pre post : List UInt8)
    (x0 x1 x2 x3 : UInt8) (i : Nat) (rest : List Nat) (hi : i < buffer.length)
    (hpre : pre.length = i * 4) :
    encodeDigestChecked buffer (i :: rest) (pre ++ x0 :: x1 :: x2 :: x3 :: post)
      = encodeDigestChecked buffer rest (pre ++ encodeWord (buffer.getD i 0) ++ post) := by
  rw [encodeDigestChecked, readAt_lt buffer i 0 hi]
  simp only [Option.bind_eq_bind, Option.some_bind]
  rw [writeAt_mid pre _ x0 _ (i * 4 + 0) hpre]
  simp only [Option.some_bind]
  rw [show pre ++ UInt8.ofNat (buffer.getD i 0 &&& 255) :: x1 :: x2 :: x3 :: post
      = (pre ++ [UInt8.ofNat (buffer.getD i 0 &&& 255)]) ++ x1 :: x2 :: x3 :: post by simp,
    writeAt_mid _ _ x1 _ (i * 4 + 1) (by simp [hpre])]
  simp only [Option.some_bind]
  rw [show (pre ++ [UInt8.ofNat (buffer.getD i 0 &&& 255)]) ++
        UInt8.ofNat ((buffer.getD i 0 &&& 65280) >>> 8) :: x2 :: x3 :: post
      = (pre ++ [UInt8.ofNat (buffer.getD i 0 &&& 255),
          UInt8.ofNat ((buffer.getD i 0 &&& 65280) >>> 8)]) ++ x2 :: x3 :: post by simp,
    writeAt_mid _ _ x2 _ (i * 4 + 2) (by simp [hpre])]
  simp only [Option.some_bind]
  rw [show (pre ++ [UInt8.ofNat (buffer.getD i 0 &&& 255),
          UInt8.ofNat ((buffer.getD i 0 &&& 65280) >>> 8)]) ++
        UInt8.ofNat ((buffer.getD i 0 &&& 16711680) >>> 16) :: x3 :: post
      = (pre ++ [UInt8.ofNat (buffer.getD i 0 &&& 255),
          UInt8.ofNat ((buffer.getD i 0 &&& 65280) >>> 8),
          UInt8.ofNat ((buffer.getD i 0 &&& 16711680) >>> 16)]) ++ x3 :: post by simp,
    writeAt_mid _ _ x3 _ (i * 4 + 3) (by simp [hpre])]
  simp only [Option.some_bind]
  congr 1
  simp [encodeWord]

theorem encodeDigestChecked_eq (buffer : List Nat) (digest : List UInt8)
    (hb : buffer.length = 4) (hd : digest.length = 16) :
    encodeDigestChecked buffer (List.range 4) digest = some (encodeDigest buffer) := by
  match buffer, hb with
  | [a0, a1, a2, a3], _ =>
    obtain ⟨d0, t0, rfl, h0⟩ := cons_of_length digest 15 hd
    obtain ⟨d1, t1, rfl, h1⟩ := cons_of_length t0 14 h0
    obtain ⟨d2, t2, rfl, h2⟩ := cons_of_length t1 13 h1
    obtain ⟨d3, t3, rfl, h3⟩ := cons_of_length t2 12 h2
    obtain ⟨d4, t4, rfl, h4⟩ := cons_of_length t3 11 h3
    obtain ⟨d5, t5, rfl, h5⟩ := cons_of_length t4 10 h4
    obtain ⟨d6, t6, rfl, h6⟩ := cons_of_length t5 9 h5
    obtain ⟨d7, t7, rfl, h7⟩ := cons_of_length t6 8 h6
    obtain ⟨d8, t8, rfl, h8⟩ := cons_of_length t7 7 h7
    obtain ⟨d9, t9, rfl, h9⟩ := cons_of_length t8 6 h8
    obtain ⟨d10, t10, rfl, h10⟩ := cons_of_length t9 5 h9
    obtain ⟨d11, t11, rfl, h11⟩ := cons_of_length t10 4 h10
    obtain ⟨d12, t12, rfl, h12⟩ := cons_of_length t11 3 h11
    obtain ⟨d13, t13, rfl, h13⟩ := cons_of_length t12 2 h12
    obtain ⟨d14, t14, rfl, h14⟩ := cons_of_length t13 1 h13
    obtain ⟨d15, t15, rfl, h15⟩ := cons_of_length t14 0 h14
    rw [List.length_eq_zero] at h15
    subst h15
    have e0 := encodeDigestChecked_cons [a0, a1, a2, a3] []
      [d4, d5, d6, d7, d8, d9, d10, d11, d12, d13, d14, d15] d0 d1 d2 d3 0 [1, 2, 3]
      (by simp) rfl
    have e1 := encodeDigestChecked_cons [a0, a1, a2, a3] (encodeWord a0)
      [d8, d9, d10, d11, d12, d13, d14, d15] d4 d5 d6 d7 1 [2, 3] (by simp) rfl
    have e2 := encodeDigestChecked_cons [a0, a1, a2, a3] (encodeWord a0 ++ encodeWord a1)
      [d12, d13, d14, d15] d8 d9 d10 d11 2 [3] (by simp) rfl
    have e3 := encodeDigestChecked_cons [a0, a1, a2, a3]
      (encodeWord a0 ++ encodeWord a1 ++ encodeWord a2) [] d12 d13 d14 d15 3 [] (by simp) rfl
    rw [show List.range 4 = [0, 1, 2, 3] by decide]
    exact e0.trans (e1.trans (e2.trans e3))

theorem finalizeChecked_eq (s : State) (hb : s.buffer.length = 4) (hlen : s.input.length = 64)
    (hd : s.digest.length = 16) : finalizeChecked s = some (finalize s) := by
  have hpad : paddingLength s ≤ padding.length := by
    rw [padding_length]; exact paddingLength_le s
  obtain ⟨hb1, hl1, hd1⟩ := update_lengths s (padding.take (paddingLength s)) hb hlen hd
  unfold finalizeChecked
  simp only [Option.bind_eq_bind]
  rw [updateChecked_eq s padding _ hb hlen hpad]
  simp only [Option.some_bind]
  rw [decodeBlockChecked_eq _ (List.range 14)
    (fun idx hidx => by
      have := List.mem_range.mp hidx
      rw [hl1]; omega)]
  simp only [Option.some_bind]
  have hs := stepChecked_eq (finalizePadded s) (finalBlock (finalizePadded s)) hb1
    (by simp [finalBlock, decodeBlock])
  have he := encodeDigestChecked_eq (step (finalizePadded s) (finalBlock (finalizePadded s))).buffer
    (step (finalizePadded s) (finalBlock (finalizePadded s))).digest rfl hd1
  show ((stepChecked (finalizePadded s) (finalBlock (finalizePadded s))).bind _) = _
  rw [hs]
  simp only [Option.some_bind]
  rw [he]
  rfl

theorem digestStringChecked_eq (x : List UInt8) :
    digestStringChecked x = some (digestString x) := by
  obtain ⟨hb1, hl1, hd1⟩ := update_lengths init x rfl rfl rfl
  unfold digestStringChecked
  simp only [Option.bind_eq_bind]
  rw [updateChecked_eq init x x.length rfl rfl (Nat.le_refl _), List.take_length]
  simp only [Option.some_bind]
  rw [finalizeChecked_eq _ hb1 hl1 hd1]
  rfl

/-- C18: every array access of the engine is in bounds.  On an object with its
4-word accumulator, 64-byte buffer and 16-byte digest, the engine with every array
read and write checked never fails and computes what the unchecked engine computes,
for `update`, `finalize` and `digestString`; the object keeps its array sizes; the
write offset of `update` stays below 64; in `step` the block-word index is below 16
and the table index below 64; the padding length is at most the 64 entries of the
padding array; the block decoding reads positions `0..63` (`0..55` in `finalize`). -/
theorem array_accesses_in_bounds (s : State) (a : List UInt8)
    (hb : s.buffer.length = 4) (hi : s.input.length = 64) (hd : s.digest.length = 16) :
    updateChecked s a a.length = some (update s a) ∧
    finalizeChecked s = some (finalize s) ∧
    digestStringChecked a = some (digestString a) ∧
    ((update s a).buffer.length = 4 ∧ (update s a).input.length = 64 ∧
      (update s a).digest.length = 16) ∧
    (∀ offset : Fin 64, (updateLoop a offset.val s).1 < 64) ∧
    (∀ i : Fin 64,
      stepIdx i.val < 16 ∧ i.val < shift.length ∧ i.val < sineDerivation.length) ∧
    paddingLength s ≤ padding.length ∧
    (∀ idx : Fin 16, idx.val * 4 + 3 < 64) ∧
    (∀ idx : Fin 14, idx.val * 4 + 3 < 56) := by
  refine ⟨?_, finalizeChecked_eq s hb hi hd, digestStringChecked_eq a,
    update_lengths s a hb hi hd, fun offset => ?_, by decide, ?_, by decide, by decide⟩
  · have h := updateChecked_eq s a a.length hb hi (Nat.le_refl _)
    rw [List.take_length] at h
    exact h
  · rw [updateLoop_offset _ _ _ offset.isLt]
    exact Nat.mod_lt _ (by decide)
  · rw [padding_length]
    exact paddingLength_le s

theorem array_accesses_in_bounds_witness :
    init.buffer.length = 4 ∧ init.input.length = 64 ∧ init.digest.length = 16 ∧
    updateChecked init [0x61, 0x62, 0x63] ([0x61, 0x62, 0x63] : List UInt8).length
      = some (update init [0x61, 0x62, 0x63]) ∧
    finalizeChecked init = some (finalize init) :=
  ⟨rfl, rfl, rfl,
    (array_accesses_in_bounds init [0x61, 0x62, 0x63] rfl rfl rfl).1,
    (array_accesses_in_bounds init [0x61, 0x62, 0x63] rfl rfl rfl).2.1⟩

/-! ## The block sequence of `digestString` -/

theorem updateLoopBlocks_fold (a : List UInt8) (offset : Nat) (s : State) :
    (updateLoop a offset s).2.buffer = (updateLoopBlocks a offset s).foldl compress s.buffer := by
  induction a generalizing offset s with
  | nil => rfl
  | cons b rest ih =>
    simp only [updateLoop, updateLoopBlocks]
    split
    · rw [ih, List.foldl_cons]; rfl
    · rw [ih]

theorem updateLoopBlocks_withSize (a : List UInt8) (offset : Nat) (s : State) (n : Nat) :
    updateLoopBlocks a offset { s with size := n } = updateLoopBlocks a offset s := by
  induction a generalizing offset s with
  | nil => rfl
  | cons x rest ih =>
    simp only [updateLoopBlocks]
    split
    · congr 1
      exact ih 0 (step { s with input := s.input.set offset x }
        (decodeBlock (s.input.set offset x) 16))
    · exact ih (offset + 1) { s with input := s.input.set offset x }

theorem updateLoopBlocks_append (a b : List UInt8) (offset : Nat) (s : State) :
    updateLoopBlocks (a ++ b) offset s =
      updateLoopBlocks a offset s ++
        updateLoopBlocks b (updateLoop a offset s).1 (updateLoop a offset s).2 := by
  induction a generalizing offset s with
  | nil => rfl
  | cons x rest ih =>
    simp only [List.cons_append, updateLoop, updateLoopBlocks]
    split
    · exact congrArg (_ :: ·) (ih 0 _)
    · exact ih (offset + 1) _

theorem updateBlocks_fold (s : State) (a : List UInt8) :
    (update s a).buffer = (updateBlocks s a).foldl compress s.buffer :=
  updateLoopBlocks_fold a (s.size % 64) { s with size := (s.size + a.length) % u64 }

theorem updateBlocks_append (s : State) (a b : List UInt8) :
    updateBlocks s (a ++ b) = updateBlocks s a ++ updateBlocks (update s a) b := by
  have hoff : (updateLoop a (s.size % 64) s).1 = (s.size + a.length) % 64 := by
    rw [updateLoop_offset _ _ _ (Nat.mod_lt _ (by decide))]; omega
  simp only [updateBlocks, update, updateLoopBlocks_withSize, updateLoop_withSize,
    updateLoopBlocks_append, updateLoop_size, size_mod, hoff]

theorem updateBlocks_singleton (s : State) (b : UInt8) :
    updateBlocks s [b] =
      if (s.size % 64 + 1) % 64 = 0 then [decodeBlock (s.input.set (s.size % 64) b) 16]
      else [] := by
  simp only [updateBlocks, updateLoopBlocks]

/-- The blocks compressed while absorbing `m` into a fresh object are the full
64-byte blocks of `m`, read as little-endian words. -/
theorem updateBlocks_init (m : List UInt8) :
    updateBlocks init m = (refBlocks m).map refWords := by
  induction m using List.reverseRecOn with
  | nil => rfl
  | append_singleton l a ih =>
    obtain ⟨_, ihl, iht⟩ := update_init_spec l
    have hsz : (update init l).size % 64 = l.length % 64 := by
      rw [update_size, size_mod]; simp [init]
    rw [updateBlocks_append, ih, updateBlocks_singleton, hsz]
    by_cases hk : (l.length % 64 + 1) % 64 = 0
    · have hk63 : l.length % 64 = 63 := by omega
      rw [if_pos hk, refBlocks_append_fill l [a] (by simp; omega), List.map_append]
      congr 1
      have hblk : (update init l).input.set (l.length % 64) a
          = l.drop (64 * (l.length / 64)) ++ [a] := by
        rw [← iht, ← take_set_succ _ _ _ (by omega)]
        rw [List.take_of_length_le (by simp [ihl]; omega)]
      rw [hblk, decodeBlock_eq_refWords]
      rfl
    · rw [if_neg hk, refBlocks_append_short l [a] (by simp; omega), List.append_nil]

theorem digestStringBlocks_eq (x : List UInt8) (hx : x.length < 2305843009213693952) :
    digestStringBlocks x = (refBlocks (refPad x)).map refWords := by
  obtain ⟨hsz, hb, hl, ht⟩ := finalizePadded_spec x hx
  have hfb := finalBlock_eq (finalizePadded (update init x)) hl (by rw [hsz]; exact hx)
  rw [ht, hsz] at hfb
  have hmod := refZeros_length x.length
  have hfill := refBlocks_append_fill
    (x ++ [0x80] ++ List.replicate (refZeros x.length) 0) (refLength64 (8 * x.length))
    (by rw [refLength64_length]; simp; omega)
  have hsz0 : (update init x).size = x.length := by
    rw [update_size]; simp only [init, u64]; omega
  have hpad : padding.take (paddingLength (update init x))
      = [0x80] ++ List.replicate (refZeros x.length) 0 := by
    rw [paddingLength_eq, hsz0, padding_take _ (refZeros_le _)]
  unfold digestStringBlocks finalizeBlocks refPad
  rw [← List.append_assoc, ← updateBlocks_append, hpad, ← List.append_assoc, updateBlocks_init,
    hfb, hfill, List.map_append]
  rfl

theorem digestString_of_blocks (x : List UInt8) :
    digestString x = encodeDigest ((digestStringBlocks x).foldl compress init.buffer) := by
  have h1 := updateBlocks_fold init x
  have h2 := updateBlocks_fold (update init x)
    (padding.take (paddingLength (update init x)))
  unfold digestStringBlocks finalizeBlocks
  rw [List.foldl_append, List.foldl_append, ← h1, ← h2]
  rfl

theorem refLength64_inj (v w : Nat) (hv : v < 18446744073709551616)
    (hw : w < 18446744073709551616) (h : refLength64 v = refLength64 w) : v = w := by
  unfold refLength64 at h
  rw [List.map_inj_left] at h
  have g (j : Nat) (hj : j < 8) : v / 256 ^ j % 256 = w / 256 ^ j % 256 := by
    have e := congrArg UInt8.toNat (h j (List.mem_range.mpr hj))
    rw [ofNat_toNat, ofNat_toNat, Nat.mod_mod, Nat.mod_mod] at e
    exact e
  have g0 := g 0 (by omega)
  have g1 := g 1 (by omega)
  have g2 := g 2 (by omega)
  have g3 := g 3 (by omega)
  have g4 := g 4 (by omega)
  have g5 := g 5 (by omega)
  have g6 := g 6 (by omega)
  have g7 := g 7 (by omega)
  simp only [Nat.reducePow] at g0 g1 g2 g3 g4 g5 g6 g7
  omega

theorem refPad_inj (x y : List UInt8) (hx : x.length < 2305843009213693952)
    (hy : y.length < 2305843009213693952) (h : refPad x = refPad y) : x = y := by
  unfold refPad at h
  obtain ⟨hpre, hlen⟩ := List.append_inj' h (by rw [refLength64_length, refLength64_length])
  have hl : x.length = y.length := by
    have := refLength64_inj _ _ (by omega) (by omega) hlen
    omega
  rw [List.append_assoc, List.append_assoc] at hpre
  exact (List.append_inj hpre hl).1

theorem refPad_length_mod (x : List UInt8) : (refPad x).length % 64 = 0 := by
  have h := refZeros_length x.length
  unfold refPad
  simp only [List.length_append, List.length_singleton, List.length_replicate,
    refLength64_length]
  omega

theorem refBlocks_flatten (p : List UInt8) (h : p.length % 64 = 0) :
    (refBlocks p).flatten = p := by
  unfold refBlocks
  rw [flatten_chunks p 64 (p.length / 64)]
  exact List.take_of_length_le (by omega)

theorem refBlocks_block_length (p blk : List UInt8) (h : blk ∈ refBlocks p) :
    blk.length = 64 := by
  unfold refBlocks at h
  rw [List.mem_map] at h
  obtain ⟨k, hk, rfl⟩ := h
  rw [List.mem_range] at hk
  rw [List.length_take, List.length_drop]
  omega

theorem byte_eq_of_toNat (a b : UInt8) (h : a.toNat = b.toNat) : a = b := UInt8.ext h

theorem refWords_inj (b1 b2 : List UInt8) (h1 : b1.length = 64) (h2 : b2.length = 64)
    (h : refWords b1 = refWords b2) : b1 = b2 := by
  unfold refWords at h
  rw [List.map_inj_left] at h
  apply List.ext_getElem (by rw [h1, h2])
  intro j hj1 hj2
  rw [h1] at hj1
  have hw := h (j / 4) (List.mem_range.mpr (by omega))
  have t0 := UInt8.toNat_lt (b1.getD (4 * (j / 4)) 0)
  have t1 := UInt8.toNat_lt (b1.getD (4 * (j / 4) + 1) 0)
  have t2 := UInt8.toNat_lt (b1.getD (4 * (j / 4) + 2) 0)
  have t3 := UInt8.toNat_lt (b1.getD (4 * (j / 4) + 3) 0)
  have u0 := UInt8.toNat_lt (b2.getD (4 * (j / 4)) 0)
  have u1 := UInt8.toNat_lt (b2.getD (4 * (j / 4) + 1) 0)
  have u2 := UInt8.toNat_lt (b2.getD (4 * (j / 4) + 2) 0)
  have u3 := UInt8.toNat_lt (b2.getD (4 * (j / 4) + 3) 0)
  simp only [Nat.reducePow] at t0 t1 t2 t3 u0 u1 u2 u3
  have e0 : b1.getD (4 * (j / 4)) 0 = b2.getD (4 * (j / 4)) 0 :=
    byte_eq_of_toNat _ _ (by omega)
  have e1 : b1.getD (4 * (j / 4) + 1) 0 = b2.getD (4 * (j / 4) + 1) 0 :=
    byte_eq_of_toNat _ _ (by omega)
  have e2 : b1.getD (4 * (j / 4) + 2) 0 = b2.getD (4 * (j / 4) + 2) 0 :=
    byte_eq_of_toNat _ _ (by omega)
  have e3 : b1.getD (4 * (j / 4) + 3) 0 = b2.getD (4 * (j / 4) + 3) 0 :=
    byte_eq_of_toNat _ _ (by omega)
  have hg : b1.getD j 0 = b2.getD j 0 := by
    have hr : j % 4 = 0 ∨ j % 4 = 1 ∨ j % 4 = 2 ∨ j % 4 = 3 := by omega
    rcases hr with hr | hr | hr | hr
    · rw [show j = 4 * (j / 4) by omega]; exact e0
    · rw [show j = 4 * (j / 4) + 1 by omega]; exact e1
    · rw [show j = 4 * (j / 4) + 2 by omega]; exact e2
    · rw [show j = 4 * (j / 4) + 3 by omega]; exact e3
  rw [List.getD_eq_getElem?_getD, List.getD_eq_getElem?_getD,
    List.getElem?_eq_getElem (by omega), List.getElem?_eq_getElem hj2] at hg
  exact hg

theorem map_refWords_inj (l1 l2 : List (List UInt8)) (h1 : ∀ b ∈ l1, b.length = 64)
    (h2 : ∀ b ∈ l2, b.length = 64) (h : l1.map refWords = l2.map refWords) : l1 = l2 := by
  induction l1 generalizing l2 with
  | nil =>
    cases l2 with
    | nil => rfl
    | cons b t => simp at h
  | cons a t ih =>
    cases l2 with
    | nil => simp at h
    | cons b t2 =>
      simp only [List.map_cons, List.cons.injEq] at h
      rw [refWords_inj a b (h1 a (List.mem_cons_self _ _)) (h2 b (List.mem_cons_self _ _)) h.1,
        ih t2 (fun c hc => h1 c (List.mem_cons_of_mem _ hc))
          (fun c hc => h2 c (List.mem_cons_of_mem _ hc)) h.2]

theorem digestStringBlocks_inj (x y : List UInt8) (hx : x.length < 2305843009213693952)
    (hy : y.length < 2305843009213693952)
    (h : digestStringBlocks x = digestStringBlocks y) : x = y := by
  rw [digestStringBlocks_eq x hx, digestStringBlocks_eq y hy] at h
  have hb := map_refWords_inj _ _ (refBlocks_block_length (refPad x))
    (refBlocks_block_length (refPad y)) h
  have hp : refPad x = refPad y := by
    rw [← refBlocks_flatten _ (refPad_length_mod x), ← refBlocks_flatten _ (refPad_length_mod y),
      hb]
  exact refPad_inj x y hx hy hp

/-- C20: the padding is injective.  For two different byte strings of length below
`2^61`, the sequences of 16-word blocks that `digestString` passes to the compression
transform (the blocks compressed by `update`, by the padding update, and the final
length block) are different; the digest is computed from that sequence alone, by
folding the compression transform over it. -/
theorem padding_injective (x y : List UInt8) (hx : x.length < 2 ^ 61)
    (hy : y.length < 2 ^ 61) (hxy : x ≠ y) :
    digestStringBlocks x ≠ digestStringBlocks y ∧
    digestString x = encodeDigest ((digestStringBlocks x).foldl compress init.buffer) ∧
    digestString y = encodeDigest ((digestStringBlocks y).foldl compress init.buffer) :=
  ⟨fun h => hxy (digestStringBlocks_inj x y hx hy h), digestString_of_blocks x,
    digestString_of_blocks y⟩

theorem padding_injective_witness :
    ([0x61] : List UInt8).length < 2 ^ 61 ∧ ([0x61, 0x00] : List UInt8).length < 2 ^ 61 ∧
    ([0x61] : List UInt8) ≠ [0x61, 0x00] ∧
    digestStringBlocks [0x61] ≠ digestStringBlocks [0x61, 0x00] :=
  ⟨by decide, by decide, by decide,
    (padding_injective [0x61] [0x61, 0x00] (by decide) (by decide) (by decide)).1⟩

/-! ## The sine table -/

theorem iPow_spec (m : Nat) :
    Complex.I ^ m = ((iPow m).1 : ℂ) + ((iPow m).2 : ℂ) * Complex.I := by
  induction m with
  | zero => simp [iPow]
  | succ m ih =>
    rw [pow_succ, ih]
    simp only [iPow, Int.cast_neg]
    linear_combination ((iPow m).2 : ℂ) * Complex.I_mul_I

theorem taylorDen_eq : taylorDen = Nat.factorial 19 := by decide

theorem taylorNum_twenty : taylorNum 20 = (taylorCos, taylorSin) := by decide

theorem taylor_spec (n : Nat) (hn : n ≤ 20) :
    (∑ m ∈ Finset.range n, Complex.I ^ m / (m.factorial : ℂ)) * (taylorDen : ℂ)
      = ((taylorNum n).1 : ℂ) + ((taylorNum n).2 : ℂ) * Complex.I := by
  induction n with
  | zero => simp [taylorNum]
  | succ n ih =>
    have hdvd : n.factorial ∣ taylorDen := by
      rw [taylorDen_eq]; exact Nat.factorial_dvd_factorial (by omega)
    have hne : (n.factorial : ℂ) ≠ 0 := Nat.cast_ne_zero.mpr (Nat.factorial_ne_zero n)
    have hcast : ((taylorDen / n.factorial : Nat) : ℂ) = (taylorDen : ℂ) / (n.factorial : ℂ) :=
      Nat.cast_div hdvd hne
    rw [Finset.sum_range_succ, add_mul, ih (by omega), iPow_spec]
    simp only [taylorNum, Int.cast_add, Int.cast_mul, Int.cast_natCast, hcast]
    field_simp
    ring

theorem taylorDen_pos : (0 : ℝ) < (taylorDen : ℝ) := by
  rw [taylorDen_eq]; exact Nat.cast_pos.mpr (Nat.factorial_pos 19)

theorem taylor_value :
    ∑ m ∈ Finset.range 20, Complex.I ^ m / (m.factorial : ℂ)
      = (⟨(taylorCos : ℝ) / taylorDen, (taylorSin : ℝ) / taylorDen⟩ : ℂ) := by
  have h := taylor_spec 20 (Nat.le_refl _)
  rw [taylorNum_twenty] at h
  have hD : (taylorDen : ℂ) ≠ 0 := by
    have := taylorDen_pos
    exact_mod_cast this.ne'
  apply mul_right_cancel₀ hD
  rw [h]
  have hD' : (taylorDen : ℝ) ≠ 0 := taylorDen_pos.ne'
  apply Complex.ext
  · simp
    field_simp
  · simp
    field_simp

theorem taylor_approx :
    Complex.abs (Complex.exp Complex.I
        - (⟨(taylorCos : ℝ) / taylorDen, (taylorSin : ℝ) / taylorDen⟩ : ℂ))
      ≤ 21 / 48658040163532800000 := by
  have h := Complex.exp_bound (x := Complex.I) (by simp) (n := 20) (by decide)
  rw [taylor_value] at h
  have hf : (Nat.factorial 20 : ℝ) = 2432902008176640000 := by
    have : Nat.factorial 20 = 2432902008176640000 := by decide
    rw [this]; norm_num
  simp only [Complex.abs_I, one_pow, one_mul, Nat.succ_eq_add_one, Nat.cast_add, Nat.cast_ofNat,
    Nat.cast_one] at h
  rw [hf] at h
  calc _ ≤ _ := h
    _ = 21 / 48658040163532800000 := by norm_num

theorem taylor_norm_le :
    Complex.abs (⟨(taylorCos : ℝ) / taylorDen, (taylorSin : ℝ) / taylorDen⟩ : ℂ) ≤ 1 := by
  have hi : taylorCos * taylorCos + taylorSin * taylorSin ≤ (taylorDen : Int) * taylorDen := by
    decide
  have hr : (taylorCos : ℝ) * taylorCos + (taylorSin : ℝ) * taylorSin
      ≤ (taylorDen : ℝ) * taylorDen := by exact_mod_cast hi
  have hD := taylorDen_pos
  rw [Complex.abs_apply, Real.sqrt_le_one, Complex.normSq_mk, div_mul_div_comm,
    div_mul_div_comm, ← add_div, div_le_one (by positivity)]
  exact hr

theorem pow_approx (a b : ℂ) (d : ℝ) (ha : Complex.abs a = 1) (hb : Complex.abs b ≤ 1)
    (hab : Complex.abs (a - b) ≤ d) (k : Nat) : Complex.abs (a ^ k - b ^ k) ≤ k * d := by
  have hd : 0 ≤ d := le_trans (Complex.abs.nonneg _) hab
  induction k with
  | zero => simp
  | succ k ih =>
    have e : a ^ (k + 1) - b ^ (k + 1) = a * (a ^ k - b ^ k) + (a - b) * b ^ k := by ring
    have hbk : Complex.abs (b ^ k) ≤ 1 := by
      rw [map_pow]; exact pow_le_one₀ (Complex.abs.nonneg _) hb
    calc Complex.abs (a ^ (k + 1) - b ^ (k + 1))
        = Complex.abs (a * (a ^ k - b ^ k) + (a - b) * b ^ k) := by rw [e]
      _ ≤ Complex.abs (a * (a ^ k - b ^ k)) + Complex.abs ((a - b) * b ^ k) :=
          Complex.abs.add_le _ _
      _ = Complex.abs (a ^ k - b ^ k) + Complex.abs (a - b) * Complex.abs (b ^ k) := by
          rw [map_mul, map_mul, ha, one_mul]
      _ ≤ k * d + d * 1 := by
          apply add_le_add ih
          exact mul_le_mul hab hbk (Complex.abs.nonneg _) hd
      _ = ((k + 1 : Nat) : ℝ) * d := by push_cast; ring

theorem rotNum_spec (k : Nat) :
    (⟨(taylorCos : ℝ) / taylorDen, (taylorSin : ℝ) / taylorDen⟩ : ℂ) ^ k
      = ⟨((rotNum k).1 : ℝ) / (taylorDen : ℝ) ^ k, ((rotNum k).2 : ℝ) / (taylorDen : ℝ) ^ k⟩ := by
  have hD' : (taylorDen : ℝ) ≠ 0 := taylorDen_pos.ne'
  induction k with
  | zero => simp [rotNum]; rfl
  | succ k ih =>
    rw [pow_succ, ih]
    apply Complex.ext
    · simp only [Complex.mul_re, rotNum, Int.cast_sub, Int.cast_mul]
      field_simp
      ring_nf
      simp
    · simp only [Complex.mul_im, rotNum, Int.cast_add, Int.cast_mul]
      field_simp
      ring_nf
      simp

theorem sin_approx (k : Nat) :
    |Real.sin (k : ℝ) - ((rotNum k).2 : ℝ) / (taylorDen : ℝ) ^ k|
      ≤ k * (21 / 48658040163532800000) := by
  have h := pow_approx (Complex.exp Complex.I)
    (⟨(taylorCos : ℝ) / taylorDen, (taylorSin : ℝ) / taylorDen⟩ : ℂ) _
    (by simpa using Complex.abs_exp_ofReal_mul_I 1) taylor_norm_le taylor_approx k
  rw [rotNum_spec, ← Complex.exp_nat_mul] at h
  have him := Complex.abs_im_le_abs
    (Complex.exp ((k : ℂ) * Complex.I)
      - ⟨((rotNum k).1 : ℝ) / (taylorDen : ℝ) ^ k, ((rotNum k).2 : ℝ) / (taylorDen : ℝ) ^ k⟩)
  have hs : (Complex.exp ((k : ℂ) * Complex.I)).im = Real.sin (k : ℝ) := by
    have := Complex.exp_ofReal_mul_I_im (k : ℝ)
    rwa [Complex.ofReal_natCast] at this
  rw [Complex.sub_im, hs] at him
  exact le_trans him h

theorem sineCheck_sound (k K : Nat) (h : sineCheck k K = true) :
    ⌊(2 : ℝ) ^ 32 * |Real.sin (k : ℝ)|⌋₊ = K := by
  unfold sineCheck at h
  rw [decide_eq_true_eq] at h
  obtain ⟨h1, h2⟩ := h
  have hD := taylorDen_pos
  have hDk : (0 : ℝ) < (taylorDen : ℝ) ^ k := pow_pos hD k
  have hq : |((rotNum k).2 : ℝ) / (taylorDen : ℝ) ^ k|
      = ((rotNum k).2.natAbs : ℝ) / (taylorDen : ℝ) ^ k := by
    rw [abs_div, abs_of_pos hDk, Nat.cast_natAbs, Int.cast_abs]
  have r1 : (K : ℝ) * (taylorDen : ℝ) ^ k * 48658040163532800000
        + 4294967296 * ((k : ℝ) * 21) * (taylorDen : ℝ) ^ k
      ≤ 4294967296 * ((rotNum k).2.natAbs : ℝ) * 48658040163532800000 := by
    exact_mod_cast h1
  have r2 : 4294967296 * ((rotNum k).2.natAbs : ℝ) * 48658040163532800000
        + 4294967296 * ((k : ℝ) * 21) * (taylorDen : ℝ) ^ k
      < ((K : ℝ) + 1) * (taylorDen : ℝ) ^ k * 48658040163532800000 := by
    exact_mod_cast h2
  have happ := sin_approx k
  have hlow : |((rotNum k).2 : ℝ) / (taylorDen : ℝ) ^ k| - k * (21 / 48658040163532800000)
      ≤ |Real.sin (k : ℝ)| := by
    have := abs_sub_abs_le_abs_sub (((rotNum k).2 : ℝ) / (taylorDen : ℝ) ^ k) (Real.sin (k : ℝ))
    rw [abs_sub_comm] at this
    linarith
  have hhigh : |Real.sin (k : ℝ)|
      ≤ |((rotNum k).2 : ℝ) / (taylorDen : ℝ) ^ k| + k * (21 / 48658040163532800000) := by
    have := abs_sub_abs_le_abs_sub (Real.sin (k : ℝ)) (((rotNum k).2 : ℝ) / (taylorDen : ℝ) ^ k)
    linarith
  rw [hq] at hlow hhigh
  have e1 : (K : ℝ) + 4294967296 * ((k : ℝ) * (21 / 48658040163532800000))
      ≤ 4294967296 * (((rotNum k).2.natAbs : ℝ) / (taylorDen : ℝ) ^ k) := by
    rw [← sub_nonneg]
    have : 4294967296 * (((rotNum k).2.natAbs : ℝ) / (taylorDen : ℝ) ^ k)
        - ((K : ℝ) + 4294967296 * ((k : ℝ) * (21 / 48658040163532800000)))
        = (4294967296 * ((rotNum k).2.natAbs : ℝ) * 48658040163532800000
            - ((K : ℝ) * (taylorDen : ℝ) ^ k * 48658040163532800000
              + 4294967296 * ((k : ℝ) * 21) * (taylorDen : ℝ) ^ k))
          / ((taylorDen : ℝ) ^ k * 48658040163532800000) := by
      field_simp
      ring
    rw [this]
    apply div_nonneg
    · linarith
    · positivity
  have e2 : 4294967296 * (((rotNum k).2.natAbs : ℝ) / (taylorDen : ℝ) ^ k)
        + 4294967296 * ((k : ℝ) * (21 / 48658040163532800000))
      < (K : ℝ) + 1 := by
    rw [← sub_pos]
    have : (K : ℝ) + 1 - (4294967296 * (((rotNum k).2.natAbs : ℝ) / (taylorDen : ℝ) ^ k)
          + 4294967296 * ((k : ℝ) * (21 / 48658040163532800000)))
        = (((K : ℝ) + 1) * (taylorDen : ℝ) ^ k * 48658040163532800000
            - (4294967296 * ((rotNum k).2.natAbs : ℝ) * 48658040163532800000
              + 4294967296 * ((k : ℝ) * 21) * (taylorDen : ℝ) ^ k))
          / ((taylorDen : ℝ) ^ k * 48658040163532800000) := by
      field_simp
      ring
    rw [this]
    apply div_pos
    · linarith
    · positivity
  rw [Nat.floor_eq_iff (by positivity)]
  norm_num only
  constructor
  · linarith
  · linarith

set_option maxRecDepth 100000 in
theorem sineCheck_table :
    ∀ i : Fin 64, sineCheck (i.val + 1) (sineDerivation.getD i.val 0) = true := by
  decide

/-- C17: the constant table is the sine-derived table of MD5: for every `i` in
`[0,64)`, `sineDerivation[i] = floor(2^32 * |sin(i + 1)|)` with `i + 1` in radians. -/
theorem sineDerivation_is_sine_table :
    sineDerivation.length = 64 ∧
    ∀ i : Fin 64,
      sineDerivation[i.val]? = some ⌊(2 : ℝ) ^ 32 * |Real.sin ((i.val : ℝ) + 1)|⌋₊ := by
  refine ⟨by decide, fun i => ?_⟩
  have h := sineCheck_sound (i.val + 1) (sineDerivation.getD i.val 0) (sineCheck_table i)
  rw [Nat.cast_add, Nat.cast_one] at h
  rw [h, List.getD_eq_getElem?_getD,
    List.getElem?_eq_getElem (show i.val < sineDerivation.length from i.isLt)]
  rfl

/-! ## The compression transform against RFC 1321 -/

theorem schedule_length : rfcSchedule.length = 64 := by decide

theorem schedule_facts : ∀ n : Fin 64,
    (rfcSchedule.getD n.val noOp).k = stepIdx n.val ∧
    (rfcSchedule.getD n.val noOp).s = shift.getD n.val 0 ∧
    rfcT.getD ((rfcSchedule.getD n.val noOp).i - 1) 0 = sineDerivation.getD n.val 0 ∧
    0 < (rfcSchedule.getD n.val noOp).s ∧ (rfcSchedule.getD n.val noOp).s < 32 ∧
    (rfcSchedule.getD n.val noOp).order = orderAt n.val ∧
    (rfcSchedule.getD n.val noOp).aux = auxAt n.val := by
  decide

theorem stepBit_eq_aux (n : Nat) (r : Regs) :
    stepBit n r = rfcAuxFn (auxAt n) r.b1 r.b2 r.b3 := by
  unfold stepBit auxAt
  generalize n / 16 = q
  match q with
  | 0 => rfl
  | 1 => rfl
  | 2 => rfl
  | q + 3 => rfl

theorem rotateLeft_eq_rfcRotl (x n : Nat) (hx : x < 2 ^ 32) (h0 : 0 < n) (hn : n < 32) :
    rotateLeft x n = rfcRotl x n :=
  rotateLeft_eq_add x n hx h0 hn

/-- The value the code assigns to `buf_1` in step `n` is the value the RFC assigns in
operation `n` of its schedule. -/
theorem stepValue_eq (X : List Nat) (n : Nat) (hn : n < 64) (r : Regs) :
    (r.b1 + rotateLeft
        ((r.b0 + stepBit n r + sineDerivation.getD n 0 + X.getD (stepIdx n) 0) % u32)
        (shift.getD n 0)) % u32
      = rfcValue X (rfcSchedule.getD n noOp) r.b0 r.b1 r.b2 r.b3 := by
  obtain ⟨hk, hs, ht, h0, h32, _, ha⟩ := schedule_facts ⟨n, hn⟩
  simp only at hk hs ht h0 h32 ha
  unfold rfcValue
  rw [hk, ht, ha, ← stepBit_eq_aux, hs]
  rw [hs] at h0 h32
  have hlt : (r.b0 + stepBit n r + sineDerivation.getD n 0 + X.getD (stepIdx n) 0) % u32
      < 2 ^ 32 := Nat.mod_lt _ (by decide)
  rw [rotateLeft_eq_rfcRotl _ _ hlt h0 h32]
  have harg : (r.b0 + stepBit n r + sineDerivation.getD n 0 + X.getD (stepIdx n) 0) % u32
      = rfcAdd (rfcAdd (rfcAdd r.b0 (stepBit n r)) (X.getD (stepIdx n) 0))
          (sineDerivation.getD n 0) := by
    simp only [rfcAdd, u32, Nat.reducePow]
    omega
  rw [harg]
  rfl

theorem stepRound_eq_rfc (X : List Nat) (st : RfcState) (n : Nat) (hn : n < 64) :
    stepRound X (regsOf n st) n = regsOf (n + 1) (rfcApply X st (rfcSchedule.getD n noOp)) := by
  have hv := stepValue_eq X n hn (regsOf n st)
  obtain ⟨_, _, _, _, _, ho, _⟩ := schedule_facts ⟨n, hn⟩
  simp only at ho
  unfold stepRound
  simp only []
  rw [hv]
  unfold rfcApply
  rw [ho]
  have h4 : n % 4 = 0 ∨ n % 4 = 1 ∨ n % 4 = 2 ∨ n % 4 = 3 := by omega
  rcases h4 with h | h | h | h
  · have h1 : (n + 1) % 4 = 1 := by omega
    simp only [regsOf, orderAt, h, h1]
  · have h1 : (n + 1) % 4 = 2 := by omega
    simp only [regsOf, orderAt, h, h1]
  · have h1 : (n + 1) % 4 = 3 := by omega
    simp only [regsOf, orderAt, h, h1]
  · have h1 : (n + 1) % 4 = 0 := by omega
    simp only [regsOf, orderAt, h, h1]

theorem stepLoop_prefix (X : List Nat) (st : RfcState) (n : Nat) (hn : n ≤ 64) :
    (List.range n).foldl (stepRound X) (regsOf 0 st)
      = regsOf n ((rfcSchedule.take n).foldl (rfcApply X) st) := by
  induction n with
  | zero => rfl
  | succ n ih =>
    have hlt : n < rfcSchedule.length := by rw [schedule_length]; omega
    have htake : rfcSchedule.take (n + 1) = rfcSchedule.take n ++ [rfcSchedule.getD n noOp] := by
      rw [List.take_succ, List.getD_eq_getElem?_getD, List.getElem?_eq_getElem hlt]
      rfl
    rw [List.range_succ, List.foldl_append, ih (by omega), htake, List.foldl_append]
    exact stepRound_eq_rfc X _ n (by omega)

/-- One call of the compression transform of the code is the processing of one block
in RFC 1321. -/
theorem compress_eq_rfcBlock (st : RfcState) (X : List Nat) :
    compress (rfcWords st) X = rfcWords (rfcBlock st X) := by
  have h := stepLoop_prefix X st 64 (Nat.le_refl _)
  rw [List.take_of_length_le (by rw [schedule_length])] at h
  unfold compress stepLoop
  have h0 : Regs.mk ((rfcWords st).getD 0 0) ((rfcWords st).getD 1 0)
      ((rfcWords st).getD 2 0) ((rfcWords st).getD 3 0) = regsOf 0 st := rfl
  simp only []
  rw [h0, h]
  unfold rfcBlock
  simp only []
  generalize rfcSchedule.foldl (rfcApply X) st = r
  rfl

theorem foldCompress_eq_rfc (st : RfcState) (bs : List (List UInt8)) :
    foldCompress (rfcWords st) bs
      = rfcWords (bs.foldl (fun st blk => rfcBlock st (refWords blk)) st) := by
  induction bs generalizing st with
  | nil => rfl
  | cons b rest ih =>
    unfold foldCompress at ih ⊢
    rw [List.foldl_cons, List.foldl_cons, compress_eq_rfcBlock, ih]

theorem digestString_eq_md5Reference (x : List UInt8) (hx : x.length < 2305843009213693952) :
    digestString x = md5Reference x := by
  rw [digestString_eq_fold x hx, show init.buffer = rfcWords rfcInit from rfl,
    foldCompress_eq_rfc]
  unfold md5Reference rfcWords
  simp only [List.flatMap_cons, List.flatMap_nil, List.append_nil, List.append_assoc]

set_option maxRecDepth 100000 in
/-- The reference reproduces the test suite of RFC 1321, appendix A.5. -/
theorem md5Reference_test_suite :
    hexDigest (md5Reference (asciiBytes "")) = "d41d8cd98f00b204e9800998ecf8427e" ∧
    hexDigest (md5Reference (asciiBytes "a")) = "0cc175b9c0f1b6a831c399e269772661" ∧
    hexDigest (md5Reference (asciiBytes "abc")) = "900150983cd24fb0d6963f7d28e17f72" ∧
    hexDigest (md5Reference (asciiBytes "message digest"))
      = "f96b697d7cb7938d525a2f31aaf161d0" ∧
    hexDigest (md5Reference (asciiBytes "abcdefghijklmnopqrstuvwxyz"))
      = "c3fcd3d76192e4007dfb496cca67e13b" ∧
    hexDigest (md5Reference
        (asciiBytes "ABCDEFGHIJKLMNOPQRSTUVWXYZabcdefghijklmnopqrstuvwxyz0123456789"))
      = "d174ab98d277d9f5a5611c2c9f419d9f" ∧
    hexDigest (md5Reference (asciiBytes
        "12345678901234567890123456789012345678901234567890123456789012345678901234567890"))
      = "57edf4a22be3c955ac49da2e2107b67a" := by
  decide

theorem sineCheck_rfcT :
    ∀ i : Fin 64, sineCheck (i.val + 1) (rfcT.getD i.val 0) = true := by
  decide

/-- The table `T` of the reference is the one RFC 1321 defines: `T[i]` is the integer
part of `4294967296 * abs(sin(i))`. -/
theorem rfcT_is_sine_table :
    rfcT.length = 64 ∧
    ∀ i : Fin 64, rfcT[i.val]? = some ⌊(2 : ℝ) ^ 32 * |Real.sin ((i.val : ℝ) + 1)|⌋₊ := by
  refine ⟨by decide, fun i => ?_⟩
  have h := sineCheck_sound (i.val + 1) (rfcT.getD i.val 0) (sineCheck_rfcT i)
  rw [Nat.cast_add, Nat.cast_one] at h
  rw [h, List.getD_eq_getElem?_getD,
    List.getElem?_eq_getElem (show i.val < rfcT.length from i.isLt)]
  rfl

/-- C1: for every byte string `x` of length below `2^61`, `digestString x` equals the
reference MD5 of RFC 1321.  The reference `md5Reference` is written from the RFC and
shares nothing with the engine: `x` followed by one `0x80` byte, the fewest zero bytes
that bring the length to 56 modulo 64 and the 8-byte little-endian encoding of
`8 * |x|`; cut into 64-byte blocks read as sixteen little-endian words; each block
processed by the sixty-four operations `[abcd k s i]` of section 3.4 with `F`, `G`,
`H`, `I` and the table `T`, starting from `(0x67452301, 0xefcdab89, 0x98badcfe,
0x10325476)`; the four resulting words written little-endian. -/
theorem digestString_is_reference_md5 (x : List UInt8) (hx : x.length < 2 ^ 61) :
    digestString x = md5Reference x :=
  digestString_eq_md5Reference x hx

theorem digestString_is_reference_md5_witness :
    (List.replicate 56 (0x61 : UInt8)).length < 2 ^ 61 ∧
    digestString (List.replicate 56 0x61) = md5Reference (List.replicate 56 0x61) :=
  ⟨by decide, digestString_is_reference_md5 (List.replicate 56 0x61) (by decide)⟩

end QuickDigest5
